import Mathlib

/-!
# mini-bitcask-db: a shallow embedding of the storage engine

The engine of `db.go` (Open, loadIndexes, Put, Get, Delete, Merge, Close) is
embedded as pure functions over an explicit store state.  The file layer
(`DBFile`, `Entry`) is modelled from the specification's data model and
record format, since `db.go` only calls it.

Conventions.
* A Go `[]byte` is a list of naturals (`Bytes`); a nil slice and an empty
  slice are both `[]`.
* Go `int64` offsets are naturals (a log never reaches `2^63` bytes).
* A Go result pair `(x, err)` whose `x` is nil on error is `Except Error`;
  the `error` result of a mutating method is `Option Error` next to the new
  state.
* A run-time panic (nil dereference) and an exhausted loop budget are the
  `Abort` values of an outer `Except`.
* The mutex is not modelled: every operation runs alone.
* The header of a record stores the sizes of key and value in `u32` fields;
  theorems about entries that are written and read back take both lengths
  below `2^32` (`FitsHeader`).
* The platform calls that can fail take the error they return, if any, as an
  argument (`fault`), so that every outcome of a call can be stated.
-/

namespace minibitcask

/-- A byte sequence (`[]byte`). -/
abbrev Bytes := List Nat

/-- The error values of `errors.go`, and those the file layer can return. -/
inductive Error where
  | ErrEmptyKey
  | ErrKeyNotFound
  | ErrInvalidDBFile
  | EOF
  | Corruption
  | ErrClosed
  | Fault
  deriving DecidableEq, Repr

/-- Ways a call can end without returning. -/
inductive Abort where
  | nilDereference
  | outOfFuel
  deriving DecidableEq, Repr

/-! ## Entry codec -/

/-- Modelled from the spec: the mark constant `PUT` of the missing entry file
(record format, "0 = PUT"). -/
def PUT : Nat := 0

/-- Modelled from the spec: the mark constant `DEL` of the missing entry file
(record format, "1 = DEL"). -/
def DEL : Nat := 1

/-- Modelled from the spec: the size of the fixed header of the missing entry
file, `key_size: u32 | value_size: u32 | mark: u8`. -/
def entryHeaderSize : Nat := 9

/-- Modelled from the spec: the `Entry` type of the missing entry file
(key, value, mark). -/
structure Entry where
  Key : Bytes
  Value : Bytes
  Mark : Nat
  deriving DecidableEq, Repr

/-- Modelled from the spec: the constructor `NewEntry` of the missing entry
file. -/
def NewEntry (key value : Bytes) (mark : Nat) : Entry :=
  { Key := key, Value := value, Mark := mark }

/-- Modelled from the spec: `GetSize` of the missing entry file,
"encoded_size = header size + len(key) + len(value)". -/
def Entry.GetSize (e : Entry) : Nat :=
  entryHeaderSize + e.Key.length + e.Value.length

/-- Modelled from the spec: a `u32` field of the header, most significant
byte first; the value is reduced modulo `2^32` as a Go `uint32` is. -/
def putUint32 (n : Nat) : Bytes :=
  [n / 16777216 % 256, n / 65536 % 256, n / 256 % 256, n % 256]

/-- Modelled from the spec: reading back a `u32` header field. -/
def getUint32 (b : Bytes) : Nat :=
  b.foldl (fun acc x => acc * 256 + x) 0

/-- Modelled from the spec: `Encode` of the missing entry file, the record
layout `[key_size | value_size | mark][key][value]`. -/
def Entry.Encode (e : Entry) : Bytes :=
  putUint32 e.Key.length ++ putUint32 e.Value.length ++ [e.Mark % 256] ++ e.Key ++ e.Value

/-! ## Log file -/

/-- An operating-system file handle together with the bytes of its file. -/
structure OsFile where
  bytes : Bytes
  closed : Bool
  deriving DecidableEq, Repr

/-- Modelled from the spec: the `DBFile` type of the missing file layer, a
handle plus the in-memory write offset. -/
structure DBFile where
  File : OsFile
  Offset : Nat
  deriving DecidableEq, Repr

/-- Modelled from the spec: `NewDBFile` of the missing file layer
(`open_or_create`): opens the data file, whose bytes are `content`, and sets
the write offset to its length.  `fault` is the error of the platform call,
if it fails. -/
def NewDBFile (content : Bytes) (fault : Option Error) : Except Error DBFile :=
  match fault with
  | some err => .error err
  | none => .ok { File := { bytes := content, closed := false }, Offset := content.length }

/-- Modelled from the spec: `NewMergeDBFile` of the missing file layer: a new,
separate, empty temporary log file. -/
def NewMergeDBFile (fault : Option Error) : Except Error DBFile :=
  NewDBFile [] fault

/-- Modelled from the spec: `DBFile.Read` of the missing file layer
(`read_at`): decodes exactly one entry starting at `offset`.  No byte left is
the clean end of the log; fewer bytes than the header or the payload claims
is a corruption. -/
def DBFile.Read (f : DBFile) (offset : Nat) : Except Error Entry :=
  if f.File.closed then .error .ErrClosed
  else
    let rest := f.File.bytes.drop offset
    if rest.length = 0 then .error .EOF
    else if rest.length < entryHeaderSize then .error .Corruption
    else
      let keySize := getUint32 (rest.take 4)
      let valueSize := getUint32 ((rest.drop 4).take 4)
      let mark := (rest.drop 8).headD 0
      let payload := rest.drop entryHeaderSize
      if payload.length < keySize + valueSize then .error .Corruption
      else .ok { Key := payload.take keySize,
                 Value := (payload.drop keySize).take valueSize,
                 Mark := mark }

/-- Modelled from the spec: `DBFile.Write` of the missing file layer
(`append`): encodes the entry, writes it at the end of the file and advances
the write offset by the encoded size.  `fault` is the error of the platform
write, if it fails; a failed write leaves the file as it was. -/
def DBFile.Write (f : DBFile) (e : Entry) (fault : Option Error) : DBFile × Option Error :=
  match fault with
  | some err => (f, some err)
  | none =>
    if f.File.closed then (f, some .ErrClosed)
    else ({ File := { bytes := f.File.bytes ++ e.Encode, closed := false },
            Offset := f.Offset + e.GetSize }, none)

/-! ## The store -/

/-- The in-memory index, `map[string]int64`: the code only looks keys up,
sets them and deletes them. -/
abbrev Index := Bytes → Option Nat

/-- The empty map, `make(map[string]int64)`. -/
def Index.empty : Index := fun _ => none

/-- The map assignment `m[key] = offset`. -/
def Index.set (m : Index) (key : Bytes) (offset : Nat) : Index :=
  fun k => if k = key then some offset else m k

/-- The map deletion `delete(m, key)`. -/
def Index.delete (m : Index) (key : Bytes) : Index :=
  fun k => if k = key then none else m k

/-- The struct `MiniBitcask` of `db.go` (without its mutex). -/
structure MiniBitcask where
  indexes : Index
  dbFile : Option DBFile
  dirPath : String

/-- The loop of `loadIndexes`, from `offset` on.  `fuel` bounds the number of
iterations. -/
def loadLoop (f : DBFile) : Nat → Nat → Index → Except Abort Index
  | 0, _, _ => .error .outOfFuel
  | fuel + 1, offset, indexes =>
    match f.Read offset with
    | .error err =>
      -- read finish
      if err = .EOF then .ok indexes
      else .ok indexes
    | .ok entry =>
      -- set index
      let indexes := indexes.set entry.Key offset
      -- if entry is deleted, delete it in memory
      let indexes := if entry.Mark = DEL then indexes.delete entry.Key else indexes
      loadLoop f fuel (offset + entry.GetSize) indexes

/-- The method `loadIndexes` of `db.go`.  Every iteration advances the offset
by at least the header size, so one iteration per byte of the file, plus the
one that meets the end, is always enough (`loadLoop_returns`). -/
def loadIndexes (db : MiniBitcask) : Except Abort MiniBitcask :=
  match db.dbFile with
  | none => .ok db
  | some f =>
    match loadLoop f (f.File.bytes.length + 1) 0 db.indexes with
    | .error a => .error a
    | .ok indexes => .ok { db with indexes := indexes }

/-- The function `Open` of `db.go`.  `content` holds the bytes of the data
file found in the directory (none for a new directory); `mkdirFault`,
`absFault` and `openFault` are the errors of `os.MkdirAll`, `filepath.Abs`
and `NewDBFile`, if they fail.  The directory path is kept as given. -/
def Open (dirPath : String) (content : Bytes) (mkdirFault absFault openFault : Option Error) :
    Except Abort (Except Error MiniBitcask) :=
  -- if db file not exist, create it
  match mkdirFault with
  | some err => .ok (.error err)
  | none =>
    -- load data file
    match absFault with
    | some err => .ok (.error err)
    | none =>
      match NewDBFile content openFault with
      | .error err => .ok (.error err)
      | .ok dbFile =>
        -- build MiniBitcask instance
        let db : MiniBitcask :=
          { indexes := Index.empty, dbFile := some dbFile, dirPath := dirPath }
        -- load indexes from data file
        match loadIndexes db with
        | .error a => .error a
        | .ok db => .ok (.ok db)

/-- The method `Put` of `db.go`.  `fault` is the error of the platform write,
if it fails. -/
def Put (db : MiniBitcask) (key value : Bytes) (fault : Option Error) :
    Except Abort (MiniBitcask × Option Error) :=
  if key.length = 0 then .ok (db, some .ErrEmptyKey)
  else
    match db.dbFile with
    | none => .error .nilDereference
    | some f =>
      -- build entry and write to file
      let offset := f.Offset
      let entry := NewEntry key value PUT
      match f.Write entry fault with
      | (f, some err) => .ok ({ db with dbFile := some f }, some err)
      | (f, none) =>
        -- write to memory
        .ok ({ db with dbFile := some f, indexes := db.indexes.set key offset }, none)

/-- The method `Get` of `db.go`: the pair `(value, err)`.  On a clean
end-of-file the entry is nil and `entry.Value` panics.  The value is given by
its bytes: the nil of a miss and a value of length zero are both `[]`, so the
result does not tell whether a slice is nil. -/
def Get (db : MiniBitcask) (key : Bytes) : Except Abort (Bytes × Option Error) :=
  if key.length = 0 then .ok ([], some .ErrEmptyKey)
  else
    -- get from memory & check exist
    match db.indexes key with
    | none => .ok ([], none)
    | some offset =>
      match db.dbFile with
      | none => .error .nilDereference
      | some f =>
        -- get data from file
        match f.Read offset with
        | .error err => if err ≠ .EOF then .ok ([], some err) else .error .nilDereference
        | .ok entry => .ok (entry.Value, none)

/-- The method `Delete` of `db.go`.  `fault` is the error of the platform
write, if it fails. -/
def Delete (db : MiniBitcask) (key : Bytes) (fault : Option Error) :
    Except Abort (MiniBitcask × Option Error) :=
  if key.length = 0 then .ok (db, none)
  else
    -- check exist in memory
    match db.indexes key with
    | none => .ok (db, none)
    | some _ =>
      match db.dbFile with
      | none => .error .nilDereference
      | some f =>
        -- delete in file
        let entry := NewEntry key [] DEL
        match f.Write entry fault with
        | (f, some err) => .ok ({ db with dbFile := some f }, some err)
        | (f, none) =>
          -- delete in memory
          .ok ({ db with dbFile := some f, indexes := db.indexes.delete key }, none)

/-- The errors the platform returns to one call of `Merge`: creating the
temporary file, the successive writes to it, re-opening the renamed file.
The errors of closing, removing and renaming are discarded by the code and
those calls are taken to succeed. -/
structure MergeFaults where
  create : Option Error
  write : Nat → Option Error
  reopen : Option Error

/-- No fault at all. -/
def MergeFaults.none : MergeFaults :=
  { create := Option.none, write := fun _ => Option.none, reopen := Option.none }

/-- The first loop of `Merge`: read the data file from `offset` on and keep
the entries the index points at.  `fuel` bounds the number of iterations. -/
def mergeScan (f : DBFile) (indexes : Index) :
    Nat → Nat → List Entry → Except Abort (Except Error (List Entry))
  | 0, _, _ => .error .outOfFuel
  | fuel + 1, offset, validEntries =>
    match f.Read offset with
    | .error err =>
      if err = .EOF then .ok (.ok validEntries)
      else .ok (.error err)
    | .ok entry =>
      -- index in memory is latest, use to filter valid entries
      let validEntries :=
        match indexes entry.Key with
        | some off => if off = offset then validEntries ++ [entry] else validEntries
        | none => validEntries
      mergeScan f indexes fuel (offset + entry.GetSize) validEntries

/-- The second loop of `Merge`: write the valid entries to the temporary
file, updating the index after each write.  `i` counts the writes. -/
def mergeWrite (write : Nat → Option Error) :
    List Entry → Nat → DBFile → Index → DBFile × Index × Option Error
  | [], _, mergeDBFile, indexes => (mergeDBFile, indexes, none)
  | entry :: rest, i, mergeDBFile, indexes =>
    let writeOff := mergeDBFile.Offset
    match mergeDBFile.Write entry (write i) with
    | (mergeDBFile, some err) => (mergeDBFile, indexes, some err)
    | (mergeDBFile, none) =>
      -- update memory index
      mergeWrite write rest (i + 1) mergeDBFile (indexes.set entry.Key writeOff)

/-- The method `Merge` of `db.go`. -/
def Merge (db : MiniBitcask) (faults : MergeFaults) :
    Except Abort (MiniBitcask × Option Error) :=
  match db.dbFile with
  | none => .error .nilDereference
  | some f =>
    -- check data is empty
    if f.Offset = 0 then .ok (db, none)
    else
      -- read origin data file and filter valid entries
      match mergeScan f db.indexes (f.File.bytes.length + 1) 0 [] with
      | .error a => .error a
      | .ok (.error err) => .ok (db, some err)
      | .ok (.ok validEntries) =>
        -- create new tmp data file
        match NewMergeDBFile faults.create with
        | .error err => .ok (db, some err)
        | .ok mergeDBFile =>
          -- write valid entries to new tmp data file
          match mergeWrite faults.write validEntries 0 mergeDBFile db.indexes with
          | (_, indexes, some err) => .ok ({ db with indexes := indexes }, some err)
          | (mergeDBFile, indexes, none) =>
            -- close & remove old data file, rename the tmp file, open it
            match NewDBFile mergeDBFile.File.bytes faults.reopen with
            | .error err =>
              .ok ({ db with indexes := indexes,
                             dbFile := some { f with File := { f.File with closed := true } } },
                   some err)
            | .ok newDbFile => .ok ({ db with indexes := indexes, dbFile := some newDbFile }, none)

/-- The method `Close` of `db.go`; closing a closed handle is an error of the
platform. -/
def Close (db : MiniBitcask) : MiniBitcask × Option Error :=
  match db.dbFile with
  | none => (db, some .ErrInvalidDBFile)
  | some f =>
    if f.File.closed then (db, some .ErrClosed)
    else ({ db with dbFile := some { f with File := { f.File with closed := true } } }, none)

/-! ## Stores reached by calls, and sequences of calls -/

/-- The store `Open` returns for a directory that holds no data yet. -/
def fresh (dirPath : String) : MiniBitcask :=
  { indexes := Index.empty,
    dbFile := some { File := { bytes := [], closed := false }, Offset := 0 },
    dirPath := dirPath }

/-- A key and a value whose lengths fit the `u32` size fields of the record
header. -/
def FitsHeader (key value : Bytes) : Prop :=
  key.length < 4294967296 ∧ value.length < 4294967296

/-- The stores reachable from a fresh empty store by successful calls of
`Put`, `Delete` and `Merge`, whatever the platform did during them.  The
entries put fit the record header. -/
inductive Reachable : MiniBitcask → Prop where
  | fresh (dirPath : String) : Reachable (fresh dirPath)
  | put {s s' : MiniBitcask} (key value : Bytes) (fault : Option Error) :
      Reachable s → FitsHeader key value → Put s key value fault = .ok (s', none) → Reachable s'
  | delete {s s' : MiniBitcask} (key : Bytes) (fault : Option Error) :
      Reachable s → Delete s key fault = .ok (s', none) → Reachable s'
  | merge {s s' : MiniBitcask} (faults : MergeFaults) :
      Reachable s → Merge s faults = .ok (s', none) → Reachable s'

/-- One call of a mutating operation. -/
inductive Op where
  | put (key value : Bytes)
  | delete (key : Bytes)
  | merge
  deriving DecidableEq, Repr

/-- The call `op` on the store `db`, the platform never failing. -/
def Op.apply (db : MiniBitcask) : Op → Except Abort (MiniBitcask × Option Error)
  | .put key value => Put db key value none
  | .delete key => Delete db key none
  | .merge => Merge db MergeFaults.none

/-- The calls `ops` one after the other; the errors they return are dropped,
as a caller may do. -/
def run (db : MiniBitcask) : List Op → Except Abort MiniBitcask
  | [] => .ok db
  | op :: ops =>
    match op.apply db with
    | .error a => .error a
    | .ok (db, _) => run db ops

/-- The store the calls `ops` leave when started on `db`; calls that abort
leave `db`. -/
def storeAfter (db : MiniBitcask) (ops : List Op) : MiniBitcask :=
  match run db ops with
  | .ok s => s
  | .error _ => db

/-- The entries a call may write fit the record header. -/
def Op.Fits : Op → Prop
  | .put key value => FitsHeader key value
  | .delete _ => True
  | .merge => True

/-- A call of `Put` or `Delete`. -/
def Op.isWrite : Op → Bool
  | .put _ _ => true
  | .delete _ => true
  | .merge => false

/-! ## Logs as sequences of records -/

/-- An entry the store can have written: sizes within the header fields and
a mark that is `PUT` or `DEL`. -/
def Entry.WellFormed (e : Entry) : Prop :=
  FitsHeader e.Key e.Value ∧ (e.Mark = PUT ∨ e.Mark = DEL)

/-- The bytes of the log that holds the records `es` back to back. -/
def encodeLog : List Entry → Bytes
  | [] => []
  | e :: es => e.Encode ++ encodeLog es

/-- The total encoded size of the records `es`. -/
def logSize : List Entry → Nat
  | [] => 0
  | e :: es => e.GetSize + logSize es

/-- The index obtained from `indexes` by replaying the records `es`, the
first of which starts at `offset`. -/
def replayFrom : Nat → List Entry → Index → Index
  | _, [], indexes => indexes
  | offset, e :: es, indexes =>
    replayFrom (offset + e.GetSize) es
      (if e.Mark = DEL then (indexes.set e.Key offset).delete e.Key else indexes.set e.Key offset)

/-- The records of `es`, the first of which starts at `offset`, that
`indexes` points at. -/
def liveFrom (indexes : Index) : Nat → List Entry → List Entry
  | _, [] => []
  | offset, e :: es =>
    if indexes e.Key = some offset then e :: liveFrom indexes (offset + e.GetSize) es
    else liveFrom indexes (offset + e.GetSize) es

/-- The index obtained from `indexes` by pointing the key of each record of
`es` at the record, the first of which starts at `offset`. -/
def pointFrom : Nat → List Entry → Index → Index
  | _, [], indexes => indexes
  | offset, e :: es, indexes => pointFrom (offset + e.GetSize) es (indexes.set e.Key offset)

/-- The last record of `es` for `key`, with its offset when the first record
starts at `offset`. -/
def lastAt (key : Bytes) : Nat → List Entry → Option (Nat × Entry)
  | _, [] => none
  | offset, e :: es =>
    match lastAt key (offset + e.GetSize) es with
    | some r => some r
    | none => if e.Key = key then some (offset, e) else none

/-- The last record of `es` for `key`. -/
def lastRec (key : Bytes) : List Entry → Option Entry
  | [] => none
  | e :: es =>
    match lastRec key es with
    | some r => some r
    | none => if e.Key = key then some e else none

/-- The records of `es` that are not tombstones and are the last of their
key. -/
def lastPuts : List Entry → List Entry
  | [] => []
  | e :: es =>
    if e.Mark ≠ DEL ∧ lastRec e.Key es = none then e :: lastPuts es else lastPuts es

/-- The value a log holds for `key`: that of the last record for the key,
unless it is a tombstone. -/
def valueOf (key : Bytes) (es : List Entry) : Option Bytes :=
  match lastRec key es with
  | some e => if e.Mark = DEL then none else some e.Value
  | none => none

/-- The store whose log holds exactly the records `es` and whose index is
their replay. -/
def Holds (s : MiniBitcask) (es : List Entry) : Prop :=
  s.dbFile = some { File := { bytes := encodeLog es, closed := false }, Offset := logSize es } ∧
  s.indexes = replayFrom 0 es Index.empty ∧
  ∀ e ∈ es, e.WellFormed ∧ e.Key ≠ []

/-- The records of the log after a call, from those before it. -/
def logAfter (es : List Entry) : Op → List Entry
  | .put key value => if key = [] then es else es ++ [NewEntry key value PUT]
  | .delete key =>
    if key = [] then es
    else if valueOf key es = none then es
    else es ++ [NewEntry key [] DEL]
  | .merge => lastPuts es

/-! ## Merge in the two parts the lock divides it into -/

/-- What the part of `Merge` before `db.mu.Lock()` leaves: the error `Merge`
returns at once, or the valid entries its scan kept. -/
inductive ScanOutcome where
  | returned (err : Option Error)
  | scanned (validEntries : List Entry)

/-- The part of `Merge` that runs before `db.mu.Lock()` (lines 153 to 178 of
`db.go`): the check that the data is empty and the scan.  It reads the data
file and the index without holding the lock. -/
def mergeUnlocked (db : MiniBitcask) : Except Abort ScanOutcome :=
  match db.dbFile with
  | none => .error .nilDereference
  | some f =>
    -- check data is empty
    if f.Offset = 0 then .ok (.returned none)
    else
      -- read origin data file and filter valid entries
      match mergeScan f db.indexes (f.File.bytes.length + 1) 0 [] with
      | .error a => .error a
      | .ok (.error err) => .ok (.returned (some err))
      | .ok (.ok validEntries) => .ok (.scanned validEntries)

/-- The part of `Merge` that runs holding the lock (lines 180 to 221 of
`db.go`), on the store as it is when the lock is taken. -/
def mergeLocked (db : MiniBitcask) (validEntries : List Entry) (faults : MergeFaults) :
    Except Abort (MiniBitcask × Option Error) :=
  -- create new tmp data file
  match NewMergeDBFile faults.create with
  | .error err => .ok (db, some err)
  | .ok mergeDBFile =>
    -- write valid entries to new tmp data file
    match mergeWrite faults.write validEntries 0 mergeDBFile db.indexes with
    | (_, indexes, some err) => .ok ({ db with indexes := indexes }, some err)
    | (mergeDBFile, indexes, none) =>
      -- close & remove old data file, rename the tmp file, open it
      match db.dbFile with
      | none => .error .nilDereference
      | some f =>
        match NewDBFile mergeDBFile.File.bytes faults.reopen with
        | .error err =>
          .ok ({ db with indexes := indexes,
                         dbFile := some { f with File := { f.File with closed := true } } },
               some err)
        | .ok newDbFile => .ok ({ db with indexes := indexes, dbFile := some newDbFile }, none)

/-! ## The plain map the store is compared with -/

theorem Entry.Encode_length (e : Entry) : e.Encode.length = e.GetSize := by
  simp [Entry.Encode, Entry.GetSize, putUint32, entryHeaderSize]
  omega

theorem Entry.GetSize_pos (e : Entry) : 0 < e.GetSize := by
  simp [Entry.GetSize, entryHeaderSize]

theorem getUint32_putUint32 (n : Nat) (h : n < 4294967296) : getUint32 (putUint32 n) = n := by
  simp only [getUint32, putUint32, List.foldl]
  omega

theorem Entry.WellFormed.mark_lt {e : Entry} (h : e.WellFormed) : e.Mark < 256 := by
  rcases h.2 with h | h <;> simp [h, PUT, DEL]

/-- Reading where a well-formed record starts returns that record. -/
theorem Read_encode (f : DBFile) (pre post : Bytes) (e : Entry)
    (hc : f.File.closed = false) (hb : f.File.bytes = pre ++ (e.Encode ++ post))
    (hf : e.WellFormed) : f.Read pre.length = .ok e := by
  have hm := hf.mark_lt
  obtain ⟨⟨hk, hv⟩, _⟩ := hf
  have hrest : f.File.bytes.drop pre.length = e.Encode ++ post := by
    rw [hb, List.drop_left]
  have henc : e.Encode ++ post = (e.Key.length / 16777216 % 256) :: (e.Key.length / 65536 % 256) ::
      (e.Key.length / 256 % 256) :: (e.Key.length % 256) :: (e.Value.length / 16777216 % 256) ::
      (e.Value.length / 65536 % 256) :: (e.Value.length / 256 % 256) :: (e.Value.length % 256) ::
      (e.Mark % 256) :: (e.Key ++ (e.Value ++ post)) := by
    simp [Entry.Encode, putUint32]
  have hk4 : getUint32 [e.Key.length / 16777216 % 256, e.Key.length / 65536 % 256,
      e.Key.length / 256 % 256, e.Key.length % 256] = e.Key.length := getUint32_putUint32 _ hk
  have hv4 : getUint32 [e.Value.length / 16777216 % 256, e.Value.length / 65536 % 256,
      e.Value.length / 256 % 256, e.Value.length % 256] = e.Value.length :=
    getUint32_putUint32 _ hv
  unfold DBFile.Read
  simp only [hc, hrest, henc]
  simp [entryHeaderSize, hk4, hv4, Nat.mod_eq_of_lt hm]

/-- Reading at the end of the file, or beyond, is the clean end of the log. -/
theorem Read_eof (f : DBFile) (offset : Nat) (hc : f.File.closed = false)
    (h : f.File.bytes.length ≤ offset) : f.Read offset = .error .EOF := by
  unfold DBFile.Read
  simp [hc, h]

/-! ## Logs of records -/

theorem encodeLog_append (a b : List Entry) : encodeLog (a ++ b) = encodeLog a ++ encodeLog b := by
  induction a with
  | nil => rfl
  | cons e a ih => simp [encodeLog, ih]

theorem logSize_append (a b : List Entry) : logSize (a ++ b) = logSize a + logSize b := by
  induction a with
  | nil => simp [logSize]
  | cons e a ih => simp [logSize, ih]; omega

theorem encodeLog_length (es : List Entry) : (encodeLog es).length = logSize es := by
  induction es with
  | nil => rfl
  | cons e es ih => simp [encodeLog, logSize, ih, Entry.Encode_length]

theorem length_le_logSize (es : List Entry) : es.length ≤ logSize es := by
  induction es with
  | nil => simp
  | cons e es ih =>
    have := e.GetSize_pos
    simp only [List.length_cons, logSize]
    omega

/-- Reading at the offset of a record of a log returns the record. -/
theorem Read_log (f : DBFile) (pre post : List Entry) (e : Entry)
    (hc : f.File.closed = false) (hb : f.File.bytes = encodeLog (pre ++ e :: post))
    (hf : e.WellFormed) : f.Read (logSize pre) = .ok e := by
  rw [← encodeLog_length]
  apply Read_encode f (encodeLog pre) (encodeLog post) e hc _ hf
  rw [hb, encodeLog_append]
  rfl

/-- Reading at the end of a log is the clean end of the log. -/
theorem Read_log_end (f : DBFile) (es : List Entry)
    (hc : f.File.closed = false) (hb : f.File.bytes = encodeLog es) :
    f.Read (logSize es) = .error .EOF := by
  apply Read_eof f _ hc
  rw [hb, encodeLog_length]

/-- The loop of `loadIndexes` over a log of well-formed records replays them. -/
theorem loadLoop_log (f : DBFile) (hc : f.File.closed = false) :
    ∀ (rest pre : List Entry) (fuel : Nat) (indexes : Index),
      f.File.bytes = encodeLog (pre ++ rest) → (∀ e ∈ rest, e.WellFormed) → rest.length < fuel →
      loadLoop f fuel (logSize pre) indexes = .ok (replayFrom (logSize pre) rest indexes) := by
  intro rest
  induction rest with
  | nil =>
    intro pre fuel indexes hb _ hfuel
    obtain ⟨n, rfl⟩ : ∃ n, fuel = n + 1 := ⟨fuel - 1, by simp at hfuel; omega⟩
    simp only [List.append_nil] at hb
    simp [loadLoop, Read_log_end f pre hc hb, replayFrom]
  | cons e rest ih =>
    intro pre fuel indexes hb hwf hfuel
    obtain ⟨n, rfl⟩ : ∃ n, fuel = n + 1 := ⟨fuel - 1, by simp at hfuel; omega⟩
    have hread := Read_log f pre rest e hc hb (hwf e (List.mem_cons_self _ _))
    have hb' : f.File.bytes = encodeLog ((pre ++ [e]) ++ rest) := by simpa using hb
    have hsz : logSize (pre ++ [e]) = logSize pre + e.GetSize := by
      simp [logSize_append, logSize]
    have := ih (pre ++ [e]) n
      (if e.Mark = DEL then (indexes.set e.Key (logSize pre)).delete e.Key
        else indexes.set e.Key (logSize pre)) hb'
      (fun x hx => hwf x (List.mem_cons_of_mem _ hx)) (by simpa using hfuel)
    rw [hsz] at this
    simp only [loadLoop, hread, replayFrom]
    exact this

/-- The first loop of `Merge` over a log of well-formed records keeps the
records the index points at. -/
theorem mergeScan_log (f : DBFile) (hc : f.File.closed = false) (indexes : Index) :
    ∀ (rest pre : List Entry) (fuel : Nat) (valid : List Entry),
      f.File.bytes = encodeLog (pre ++ rest) → (∀ e ∈ rest, e.WellFormed) → rest.length < fuel →
      mergeScan f indexes fuel (logSize pre) valid
        = .ok (.ok (valid ++ liveFrom indexes (logSize pre) rest)) := by
  intro rest
  induction rest with
  | nil =>
    intro pre fuel valid hb _ hfuel
    obtain ⟨n, rfl⟩ : ∃ n, fuel = n + 1 := ⟨fuel - 1, by simp at hfuel; omega⟩
    simp only [List.append_nil] at hb
    simp [mergeScan, Read_log_end f pre hc hb, liveFrom]
  | cons e rest ih =>
    intro pre fuel valid hb hwf hfuel
    obtain ⟨n, rfl⟩ : ∃ n, fuel = n + 1 := ⟨fuel - 1, by simp at hfuel; omega⟩
    have hread := Read_log f pre rest e hc hb (hwf e (List.mem_cons_self _ _))
    have hb' : f.File.bytes = encodeLog ((pre ++ [e]) ++ rest) := by simpa using hb
    have hsz : logSize (pre ++ [e]) = logSize pre + e.GetSize := by
      simp [logSize_append, logSize]
    have key := fun v => ih (pre ++ [e]) n v hb'
      (fun x hx => hwf x (List.mem_cons_of_mem _ hx)) (by simpa using hfuel)
    simp only [hsz] at key
    simp only [mergeScan, hread, liveFrom]
    rw [key]
    cases hidx : indexes e.Key with
    | none => simp
    | some off =>
      by_cases ho : off = logSize pre
      · simp [ho]
      · simp [ho]

/-! ## The last record of a key -/

theorem lastAt_fst_ge (key : Bytes) :
    ∀ (es : List Entry) (offset o : Nat) (r : Entry),
      lastAt key offset es = some (o, r) → offset ≤ o := by
  intro es
  induction es with
  | nil => intro offset o r h; simp [lastAt] at h
  | cons e es ih =>
    intro offset o r h
    simp only [lastAt] at h
    cases hrec : lastAt key (offset + e.GetSize) es with
    | some p =>
      rw [hrec] at h
      simp only [Option.some.injEq] at h
      subst h
      have := ih _ _ _ hrec
      omega
    | none =>
      rw [hrec] at h
      by_cases hk : e.Key = key
      · simp [hk] at h
        omega
      · simp [hk] at h

theorem lastAt_map_snd (key : Bytes) :
    ∀ (es : List Entry) (offset : Nat),
      (lastAt key offset es).map Prod.snd = lastRec key es := by
  intro es
  induction es with
  | nil => intro offset; rfl
  | cons e es ih =>
    intro offset
    simp only [lastAt, lastRec]
    rw [← ih (offset + e.GetSize)]
    cases lastAt key (offset + e.GetSize) es with
    | some p => rfl
    | none => by_cases hk : e.Key = key <;> simp [hk]

theorem lastRec_eq_none (key : Bytes) (es : List Entry) :
    lastRec key es = none ↔ ∀ e ∈ es, e.Key ≠ key := by
  induction es with
  | nil => simp [lastRec]
  | cons e es ih =>
    simp only [lastRec, List.mem_cons, forall_eq_or_imp]
    cases hrec : lastRec key es with
    | some r =>
      rw [hrec] at ih
      simp only [false_iff, reduceCtorEq] at ih ⊢
      intro h
      exact ih h.2
    | none =>
      rw [hrec] at ih
      simp only [true_iff] at ih
      by_cases hk : e.Key = key <;> simp [hk]
      exact ih

theorem lastRec_some (key : Bytes) :
    ∀ (es : List Entry) (r : Entry), lastRec key es = some r → r ∈ es ∧ r.Key = key := by
  intro es
  induction es with
  | nil => intro r h; simp [lastRec] at h
  | cons e es ih =>
    intro r h
    simp only [lastRec] at h
    cases hrec : lastRec key es with
    | some p =>
      rw [hrec] at h
      simp only [Option.some.injEq] at h
      subst h
      have := ih _ hrec
      exact ⟨List.mem_cons_of_mem _ this.1, this.2⟩
    | none =>
      rw [hrec] at h
      by_cases hk : e.Key = key
      · simp [hk] at h
        subst h
        exact ⟨List.mem_cons_self _ _, hk⟩
      · simp [hk] at h

theorem lastAt_eq_none (key : Bytes) (es : List Entry) (offset : Nat) :
    lastAt key offset es = none ↔ ∀ e ∈ es, e.Key ≠ key := by
  rw [← lastRec_eq_none, ← lastAt_map_snd key es offset]
  simp

theorem lastAt_append (key : Bytes) :
    ∀ (a b : List Entry) (offset : Nat),
      lastAt key offset (a ++ b) =
        match lastAt key (offset + logSize a) b with
        | some r => some r
        | none => lastAt key offset a := by
  intro a
  induction a with
  | nil =>
    intro b offset
    simp only [List.nil_append, logSize, Nat.add_zero, lastAt]
    cases lastAt key offset b <;> rfl
  | cons e a ih =>
    intro b offset
    rw [List.cons_append]
    simp only [lastAt, logSize]
    rw [ih b (offset + e.GetSize), Nat.add_assoc]
    cases lastAt key (offset + (e.GetSize + logSize a)) b <;> rfl

/-- The last record of a key sits in the log where `lastAt` says. -/
theorem lastAt_decomp (key : Bytes) :
    ∀ (es : List Entry) (offset o : Nat) (r : Entry),
      lastAt key offset es = some (o, r) →
      ∃ pre post, es = pre ++ r :: post ∧ o = offset + logSize pre ∧ r.Key = key ∧
        ∀ e ∈ post, e.Key ≠ key := by
  intro es
  induction es with
  | nil => intro offset o r h; simp [lastAt] at h
  | cons e es ih =>
    intro offset o r h
    simp only [lastAt] at h
    cases hrec : lastAt key (offset + e.GetSize) es with
    | some p =>
      rw [hrec] at h
      simp only [Option.some.injEq] at h
      subst h
      obtain ⟨pre, post, hes, ho, hk, hpost⟩ := ih _ _ _ hrec
      refine ⟨e :: pre, post, by simp [hes], ?_, hk, hpost⟩
      simp only [logSize]
      omega
    | none =>
      rw [hrec] at h
      by_cases hk : e.Key = key
      · simp [hk] at h
        obtain ⟨rfl, rfl⟩ := h
        exact ⟨[], es, rfl, by simp [logSize], hk, (lastAt_eq_none key es _).1 hrec⟩
      · simp [hk] at h

theorem lastAt_of_decomp (key : Bytes) (pre post : List Entry) (r : Entry) (offset : Nat)
    (hk : r.Key = key) (hpost : ∀ e ∈ post, e.Key ≠ key) :
    lastAt key offset (pre ++ r :: post) = some (offset + logSize pre, r) := by
  rw [lastAt_append]
  simp only [lastAt, (lastAt_eq_none key post _).2 hpost, hk, if_true]

/-! ## Replay, in terms of the last record of each key -/

theorem replayFrom_apply (key : Bytes) :
    ∀ (es : List Entry) (offset : Nat) (indexes : Index),
      replayFrom offset es indexes key =
        match lastAt key offset es with
        | none => indexes key
        | some (o, e) => if e.Mark = DEL then none else some o := by
  intro es
  induction es with
  | nil => intro offset indexes; rfl
  | cons e es ih =>
    intro offset indexes
    simp only [replayFrom, lastAt]
    rw [ih]
    cases lastAt key (offset + e.GetSize) es with
    | some p => rfl
    | none =>
      by_cases hk : e.Key = key
      · by_cases hm : e.Mark = DEL <;> simp [hk, hm, Index.set, Index.delete]
      · have hk' : ¬ key = e.Key := fun h => hk h.symm
        by_cases hm : e.Mark = DEL <;> simp [hk, hk', hm, Index.set, Index.delete]

theorem pointFrom_apply (key : Bytes) :
    ∀ (es : List Entry) (offset : Nat) (indexes : Index),
      pointFrom offset es indexes key =
        match lastAt key offset es with
        | none => indexes key
        | some (o, _) => some o := by
  intro es
  induction es with
  | nil => intro offset indexes; rfl
  | cons e es ih =>
    intro offset indexes
    simp only [pointFrom, lastAt]
    rw [ih]
    cases lastAt key (offset + e.GetSize) es with
    | some p => rfl
    | none =>
      by_cases hk : e.Key = key
      · simp [hk, Index.set]
      · have hk' : ¬ key = e.Key := fun h => hk h.symm
        simp [hk, hk', Index.set]

theorem replayFrom_append (a b : List Entry) (offset : Nat) (indexes : Index) :
    replayFrom offset (a ++ b) indexes
      = replayFrom (offset + logSize a) b (replayFrom offset a indexes) := by
  induction a generalizing offset indexes with
  | nil => simp [replayFrom, logSize]
  | cons e a ih =>
    rw [List.cons_append]
    simp only [replayFrom, logSize]
    rw [ih, Nat.add_assoc]

/-! ## The records a merge keeps -/

theorem lastPuts_mem :
    ∀ (es : List Entry) (e : Entry), e ∈ lastPuts es → e ∈ es ∧ e.Mark ≠ DEL := by
  intro es
  induction es with
  | nil => intro e h; simp [lastPuts] at h
  | cons x es ih =>
    intro e h
    simp only [lastPuts] at h
    by_cases hx : x.Mark ≠ DEL ∧ lastRec x.Key es = none
    · rw [if_pos hx] at h
      rcases List.mem_cons.1 h with rfl | h
      · exact ⟨List.mem_cons_self _ _, hx.1⟩
      · exact ⟨List.mem_cons_of_mem _ (ih e h).1, (ih e h).2⟩
    · rw [if_neg hx] at h
      exact ⟨List.mem_cons_of_mem _ (ih e h).1, (ih e h).2⟩

/-- The last record a merged log holds for a key is the last record of the
log, when that one is not a tombstone. -/
theorem lastRec_lastPuts (key : Bytes) (es : List Entry) :
    lastRec key (lastPuts es) =
      match lastRec key es with
      | some e => if e.Mark = DEL then none else some e
      | none => none := by
  induction es with
  | nil => rfl
  | cons x es ih =>
    simp only [lastPuts]
    by_cases hx : x.Mark ≠ DEL ∧ lastRec x.Key es = none
    · rw [if_pos hx]
      simp only [lastRec, ih]
      cases hrec : lastRec key es with
      | some r =>
        have hr := lastRec_some key es r hrec
        have hne : ¬ x.Key = key := by
          intro hk
          exact (lastRec_eq_none x.Key es).1 hx.2 r hr.1 (hr.2.trans hk.symm)
        by_cases hm : r.Mark = DEL <;> simp [hm, hne]
      | none =>
        by_cases hk : x.Key = key
        · simp [hk, hx.1]
        · simp [hk]
    · rw [if_neg hx, ih]
      simp only [lastRec]
      cases hrec : lastRec key es with
      | some r => rfl
      | none =>
        by_cases hk : x.Key = key
        · have hm : x.Mark = DEL := by
            by_contra hm
            exact hx ⟨hm, by rw [hk]; exact hrec⟩
          simp [hk, hm]
        · simp [hk]

theorem valueOf_lastPuts (key : Bytes) (es : List Entry) :
    valueOf key (lastPuts es) = valueOf key es := by
  simp only [valueOf, lastRec_lastPuts]
  cases lastRec key es with
  | none => rfl
  | some e => by_cases hm : e.Mark = DEL <;> simp [hm]

theorem logSize_lastPuts_le (es : List Entry) : logSize (lastPuts es) ≤ logSize es := by
  induction es with
  | nil => simp [lastPuts]
  | cons x es ih =>
    simp only [lastPuts]
    split
    · simp only [logSize]; omega
    · simp only [logSize]; omega

theorem logSize_lastPuts_append_le (a b : List Entry) :
    logSize (lastPuts (a ++ b)) ≤ logSize a + logSize (lastPuts b) := by
  induction a with
  | nil => simp [logSize]
  | cons x a ih =>
    rw [List.cons_append]
    simp only [lastPuts]
    split
    · simp only [logSize]; omega
    · simp only [logSize]; omega

/-- A record that is a tombstone, or is followed by a record of its key, is
dropped by a merge, which makes the log strictly shorter. -/
theorem logSize_lastPuts_lt (a b : List Entry) (x : Entry)
    (h : x.Mark = DEL ∨ ∃ e ∈ b, e.Key = x.Key) :
    logSize (lastPuts (a ++ x :: b)) < logSize (a ++ x :: b) := by
  have h1 := logSize_lastPuts_append_le a (x :: b)
  have h2 := logSize_lastPuts_le b
  have hx : ¬ (x.Mark ≠ DEL ∧ lastRec x.Key b = none) := by
    rintro ⟨hm, hn⟩
    rcases h with h | ⟨e, he, hk⟩
    · exact hm h
    · exact (lastRec_eq_none x.Key b).1 hn e he hk
  have h3 : lastPuts (x :: b) = lastPuts b := by simp only [lastPuts, if_neg hx]
  have := x.GetSize_pos
  rw [h3] at h1
  simp only [logSize_append, logSize]
  omega

/-- The records the replayed index points at are the last records of their
keys that are not tombstones. -/
theorem liveFrom_replay (indexes : Index) :
    ∀ (rest pre : List Entry),
      liveFrom (replayFrom 0 (pre ++ rest) indexes) (logSize pre) rest = lastPuts rest := by
  intro rest
  induction rest with
  | nil => intro pre; rfl
  | cons e rest ih =>
    intro pre
    have hsz : logSize (pre ++ [e]) = logSize pre + e.GetSize := by
      simp [logSize_append, logSize]
    have ih' := ih (pre ++ [e])
    rw [hsz, List.append_assoc] at ih'
    simp only [List.singleton_append] at ih'
    simp only [liveFrom, lastPuts, ih']
    have hcond : (replayFrom 0 (pre ++ e :: rest) indexes e.Key = some (logSize pre)) ↔
        (e.Mark ≠ DEL ∧ lastRec e.Key rest = none) := by
      rw [replayFrom_apply, lastAt_append]
      simp only [lastAt, Nat.zero_add]
      cases hrec : lastAt e.Key (logSize pre + e.GetSize) rest with
      | some p =>
        obtain ⟨o, r⟩ := p
        have hge := lastAt_fst_ge _ _ _ _ _ hrec
        have hpos := e.GetSize_pos
        have hsome : lastRec e.Key rest = some r := by
          rw [← lastAt_map_snd e.Key rest (logSize pre + e.GetSize), hrec]
          rfl
        simp only [hsome]
        constructor
        · intro h
          by_cases hm : r.Mark = DEL
          · simp [hm] at h
          · simp only [hm, if_false, Option.some.injEq] at h
            omega
        · rintro ⟨_, h⟩
          cases h
      | none =>
        have hnone : lastRec e.Key rest = none := by
          rw [← lastAt_map_snd e.Key rest (logSize pre + e.GetSize), hrec]
          rfl
        by_cases hm : e.Mark = DEL <;> simp [hm, hnone]
    by_cases hc : e.Mark ≠ DEL ∧ lastRec e.Key rest = none
    · rw [if_pos (hcond.2 hc), if_pos hc]
    · rw [if_neg (fun h => hc (hcond.1 h)), if_neg hc]

/-- The second loop of `Merge`, when it ends without an error, has appended
every record to the temporary file and pointed the index at each. -/
theorem mergeWrite_ok (write : Nat → Option Error) :
    ∀ (es : List Entry) (i : Nat) (mf mf' : DBFile) (indexes indexes' : Index),
      mf.File.closed = false →
      mergeWrite write es i mf indexes = (mf', indexes', none) →
      mf' = { File := { bytes := mf.File.bytes ++ encodeLog es, closed := false },
              Offset := mf.Offset + logSize es } ∧
      indexes' = pointFrom mf.Offset es indexes := by
  intro es
  induction es with
  | nil =>
    intro i mf mf' indexes indexes' hc h
    simp only [mergeWrite, Prod.mk.injEq, and_true] at h
    obtain ⟨rfl, rfl⟩ := h
    obtain ⟨⟨b, c⟩, o⟩ := mf
    simp only at hc
    subst hc
    simp [encodeLog, logSize, pointFrom]
  | cons e es ih =>
    intro i mf mf' indexes indexes' hc h
    simp only [mergeWrite, DBFile.Write] at h
    cases hw : write i with
    | some err => simp [hw] at h
    | none =>
      simp only [hw, hc, Bool.false_eq_true, if_false] at h
      obtain ⟨h1, h2⟩ := ih _ _ _ _ _ rfl h
      refine ⟨?_, ?_⟩
      · rw [h1]
        simp [encodeLog, logSize, Nat.add_assoc]
      · rw [h2]
        rfl

/-- With no write fault the second loop of `Merge` ends without an error. -/
theorem mergeWrite_none :
    ∀ (es : List Entry) (i : Nat) (mf : DBFile) (indexes : Index),
      mf.File.closed = false →
      mergeWrite (fun _ => none) es i mf indexes =
        ({ File := { bytes := mf.File.bytes ++ encodeLog es, closed := false },
           Offset := mf.Offset + logSize es }, pointFrom mf.Offset es indexes, none) := by
  intro es
  induction es with
  | nil =>
    intro i mf indexes hc
    obtain ⟨⟨b, c⟩, o⟩ := mf
    simp only at hc
    subst hc
    simp [mergeWrite, encodeLog, logSize, pointFrom]
  | cons e es ih =>
    intro i mf indexes hc
    simp only [mergeWrite, DBFile.Write, hc, Bool.false_eq_true, if_false]
    rw [ih _ _ _ rfl]
    simp [encodeLog, logSize, pointFrom, Nat.add_assoc]

/-- Pointing the replayed index at the records a merge keeps gives the replay
of the merged log. -/
theorem pointFrom_lastPuts (es : List Entry) :
    pointFrom 0 (lastPuts es) (replayFrom 0 es Index.empty)
      = replayFrom 0 (lastPuts es) Index.empty := by
  funext key
  have hl := pointFrom_apply key (lastPuts es) 0 (replayFrom 0 es Index.empty)
  have hr := replayFrom_apply key (lastPuts es) 0 Index.empty
  have ho := replayFrom_apply key es 0 Index.empty
  rw [hl, hr]
  cases hrec : lastAt key 0 (lastPuts es) with
  | some p =>
    obtain ⟨o, r⟩ := p
    obtain ⟨pre, post, hes, _, _, _⟩ := lastAt_decomp key _ _ _ _ hrec
    have hmem : r ∈ lastPuts es := by rw [hes]; simp
    simp [(lastPuts_mem es r hmem).2]
  | none =>
    have h1 : lastRec key (lastPuts es) = none := by
      rw [← lastAt_map_snd key (lastPuts es) 0, hrec]
      rfl
    rw [lastRec_lastPuts] at h1
    simp only [Index.empty]
    rw [ho]
    cases hrec2 : lastAt key 0 es with
    | none => rfl
    | some q =>
      obtain ⟨o, r⟩ := q
      have h2 : lastRec key es = some r := by
        rw [← lastAt_map_snd key es 0, hrec2]
        rfl
      rw [h2] at h1
      by_cases hm : r.Mark = DEL
      · simp [hm]
      · simp [hm] at h1

/-! ## The invariant of reachable stores -/

theorem logSize_eq_zero (es : List Entry) (h : logSize es = 0) : es = [] := by
  cases es with
  | nil => rfl
  | cons e es =>
    have := e.GetSize_pos
    simp only [logSize] at h
    omega

theorem holds_fresh (dirPath : String) : Holds (fresh dirPath) [] := by
  refine ⟨rfl, rfl, ?_⟩
  intro e he
  cases he

theorem Holds.index_apply {s : MiniBitcask} {es : List Entry} (h : Holds s es) (key : Bytes) :
    s.indexes key =
      match lastAt key 0 es with
      | none => none
      | some (o, e) => if e.Mark = DEL then none else some o := by
  rw [h.2.1, replayFrom_apply]
  rfl

/-- The index holds a key exactly when the log holds a value for it. -/
theorem Holds.index_none_iff {s : MiniBitcask} {es : List Entry} (h : Holds s es) (key : Bytes) :
    s.indexes key = none ↔ valueOf key es = none := by
  rw [h.index_apply, valueOf, ← lastAt_map_snd key es 0]
  cases lastAt key 0 es with
  | none => simp
  | some p =>
    obtain ⟨o, e⟩ := p
    by_cases hm : e.Mark = DEL <;> simp [hm]

/-- An indexed offset is the start of the last record of the key, which is
not a tombstone. -/
theorem Holds.index_some {s : MiniBitcask} {es : List Entry} (h : Holds s es) (key : Bytes)
    (o : Nat) (hidx : s.indexes key = some o) :
    ∃ pre e post, es = pre ++ e :: post ∧ o = logSize pre ∧ e.Key = key ∧ e.Mark ≠ DEL ∧
      (∀ x ∈ post, x.Key ≠ key) ∧ valueOf key es = some e.Value := by
  rw [h.index_apply] at hidx
  cases hrec : lastAt key 0 es with
  | none => simp [hrec] at hidx
  | some p =>
    obtain ⟨o', e⟩ := p
    rw [hrec] at hidx
    by_cases hm : e.Mark = DEL
    · simp [hm] at hidx
    · simp only [hm, if_false, Option.some.injEq] at hidx
      subst hidx
      obtain ⟨pre, post, hes, ho, hk, hpost⟩ := lastAt_decomp key _ _ _ _ hrec
      refine ⟨pre, e, post, hes, by omega, hk, hm, hpost, ?_⟩
      have : lastRec key es = some e := by
        rw [← lastAt_map_snd key es 0, hrec]
        rfl
      simp [valueOf, this, hm]

/-- On a store that holds a log, `Get` returns the value the log holds for
the key, and no value when it holds none. -/
theorem Holds.get {s : MiniBitcask} {es : List Entry} (h : Holds s es) (key : Bytes)
    (hkey : key ≠ []) : Get s key = .ok ((valueOf key es).getD [], none) := by
  have hlen : ¬ key.length = 0 := by
    intro h0
    exact hkey (List.length_eq_zero.1 h0)
  unfold Get
  rw [if_neg hlen]
  cases hidx : s.indexes key with
  | none =>
    rw [(h.index_none_iff key).1 hidx]
    rfl
  | some o =>
    obtain ⟨pre, e, post, hes, ho, _, _, _, hval⟩ := h.index_some key o hidx
    have hread : DBFile.Read ⟨⟨encodeLog es, false⟩, logSize es⟩ o = .ok e := by
      rw [ho]
      apply Read_log _ pre post e rfl
      · simp [hes]
      · exact (h.2.2 e (by rw [hes]; simp)).1
    simp only [h.1, hread, hval, Option.getD_some]

theorem Holds.put {s s' : MiniBitcask} {es : List Entry} (h : Holds s es) (key value : Bytes)
    (fault : Option Error) (hfit : FitsHeader key value)
    (hput : Put s key value fault = .ok (s', none)) :
    key ≠ [] ∧ Holds s' (es ++ [NewEntry key value PUT]) := by
  unfold Put at hput
  by_cases hlen : key.length = 0
  · simp [hlen] at hput
  · have hkey : key ≠ [] := fun h0 => hlen (by simp [h0])
    rw [if_neg hlen, h.1] at hput
    cases fault with
    | some err => simp [DBFile.Write] at hput
    | none =>
      simp only [DBFile.Write, Bool.false_eq_true, if_false, Except.ok.injEq, Prod.mk.injEq,
        and_true] at hput
      subst hput
      refine ⟨hkey, ?_, ?_, ?_⟩
      · simp [encodeLog_append, logSize_append, encodeLog, logSize]
      · simp only [h.2.1, replayFrom_append, replayFrom, NewEntry, PUT, DEL]
        simp
      · intro e he
        rcases List.mem_append.1 he with he | he
        · exact h.2.2 e he
        · simp only [List.mem_singleton] at he
          subst he
          exact ⟨⟨hfit, Or.inl rfl⟩, hkey⟩

theorem Holds.delete {s s' : MiniBitcask} {es : List Entry} (h : Holds s es) (key : Bytes)
    (fault : Option Error) (hdel : Delete s key fault = .ok (s', none)) :
    Holds s' (logAfter es (.delete key)) := by
  unfold Delete at hdel
  by_cases hlen : key.length = 0
  · have hkey : key = [] := List.length_eq_zero.1 hlen
    simp only [hlen, if_true, Except.ok.injEq, Prod.mk.injEq, and_true] at hdel
    subst hdel
    simpa [logAfter, hkey] using h
  · have hkey : key ≠ [] := fun h0 => hlen (by simp [h0])
    rw [if_neg hlen] at hdel
    cases hidx : s.indexes key with
    | none =>
      simp only [hidx, Except.ok.injEq, Prod.mk.injEq, and_true] at hdel
      subst hdel
      simpa [logAfter, hkey, (h.index_none_iff key).1 hidx] using h
    | some o =>
      have hval : valueOf key es ≠ none := by
        intro hv
        rw [(h.index_none_iff key).2 hv] at hidx
        cases hidx
      obtain ⟨pre, e, post, hes, _, hk, _, _, _⟩ := h.index_some key o hidx
      have hwf := (h.2.2 e (by rw [hes]; simp)).1
      simp only [hidx, h.1] at hdel
      cases fault with
      | some err => simp [DBFile.Write] at hdel
      | none =>
        simp only [DBFile.Write, Bool.false_eq_true, if_false, Except.ok.injEq, Prod.mk.injEq,
          and_true] at hdel
        subst hdel
        simp only [logAfter, hkey, hval, if_false]
        refine ⟨?_, ?_, ?_⟩
        · simp [encodeLog_append, logSize_append, encodeLog, logSize]
        · simp only [h.2.1, replayFrom_append, replayFrom, NewEntry, if_true]
          funext k
          by_cases hkk : k = key <;> simp [Index.delete, Index.set, hkk]
        · intro x hx
          rcases List.mem_append.1 hx with hx | hx
          · exact h.2.2 x hx
          · simp only [List.mem_singleton] at hx
            subst hx
            refine ⟨⟨⟨?_, by simp [NewEntry]⟩, Or.inr rfl⟩, hkey⟩
            rw [← hk]
            exact hwf.1.1

theorem Holds.merge {s s' : MiniBitcask} {es : List Entry} (h : Holds s es)
    (faults : MergeFaults) (hm : Merge s faults = .ok (s', none)) :
    Holds s' (lastPuts es) := by
  unfold Merge at hm
  rw [h.1] at hm
  by_cases h0 : logSize es = 0
  · simp only [h0, if_true, Except.ok.injEq, Prod.mk.injEq, and_true] at hm
    subst hm
    rw [logSize_eq_zero es h0]
    rw [logSize_eq_zero es h0] at h
    exact h
  · simp only [h0, if_false] at hm
    have hscan := mergeScan_log ⟨⟨encodeLog es, false⟩, logSize es⟩ rfl s.indexes es []
      ((encodeLog es).length + 1) [] rfl
      (fun e he => (h.2.2 e he).1)
      (by rw [encodeLog_length]; have := length_le_logSize es; omega)
    simp only [logSize, List.nil_append] at hscan
    have hlive : liveFrom s.indexes 0 es = lastPuts es := by
      have := liveFrom_replay Index.empty es []
      simpa [h.2.1, logSize] using this
    rw [hlive] at hscan
    simp only [hscan] at hm
    cases hcr : faults.create with
    | some err => simp [NewMergeDBFile, NewDBFile, hcr] at hm
    | none =>
      simp only [NewMergeDBFile, NewDBFile, hcr] at hm
      cases hw : mergeWrite faults.write (lastPuts es) 0 ⟨⟨[], false⟩, ([] : Bytes).length⟩
          s.indexes with
      | mk mf rest =>
        obtain ⟨indexes', err⟩ := rest
        rw [hw] at hm
        cases err with
        | some e => simp at hm
        | none =>
          obtain ⟨hmf, hidx⟩ := mergeWrite_ok _ _ _ _ _ _ _ rfl hw
          simp only at hm
          cases hre : faults.reopen with
          | some e => simp [hre] at hm
          | none =>
            simp only [hre, Except.ok.injEq, Prod.mk.injEq, and_true] at hm
            subst hm
            refine ⟨?_, ?_, ?_⟩
            · simp [hmf, encodeLog_length]
            · simp only [hidx, List.length_nil, h.2.1]
              exact pointFrom_lastPuts es
            · intro e he
              exact h.2.2 e (lastPuts_mem es e he).1

/-- Every reachable store holds a log of well-formed records with non-empty
keys, and its index is the replay of that log. -/
theorem Reachable.holds {s : MiniBitcask} (h : Reachable s) : ∃ es, Holds s es := by
  induction h with
  | fresh dirPath => exact ⟨[], holds_fresh dirPath⟩
  | put key value fault _ hfit hput ih =>
    obtain ⟨es, hes⟩ := ih
    exact ⟨_, (hes.put key value fault hfit hput).2⟩
  | delete key fault _ hdel ih =>
    obtain ⟨es, hes⟩ := ih
    exact ⟨_, hes.delete key fault hdel⟩
  | merge faults _ hm ih =>
    obtain ⟨es, hes⟩ := ih
    exact ⟨_, hes.merge faults hm⟩

/-! ## Put, Get, Delete -/

theorem valueOf_append_put (es : List Entry) (key value : Bytes) :
    valueOf key (es ++ [NewEntry key value PUT]) = some value := by
  have h := lastAt_of_decomp key es [] (NewEntry key value PUT) 0 rfl (by simp)
  have h2 := lastAt_map_snd key (es ++ [NewEntry key value PUT]) 0
  rw [h] at h2
  simp only [Option.map_some'] at h2
  rw [valueOf, ← h2]
  simp [NewEntry, PUT, DEL]

/-- A successful `Put` appends one record and points the key at its start. -/
theorem Put_ok (s s' : MiniBitcask) (key value : Bytes) (fault : Option Error)
    (hput : Put s key value fault = .ok (s', none)) :
    key ≠ [] ∧ ∃ f, s.dbFile = some f ∧ f.File.closed = false ∧
      s' = { s with
        dbFile := some { File := { bytes := f.File.bytes ++ (NewEntry key value PUT).Encode,
                                   closed := false },
                         Offset := f.Offset + (NewEntry key value PUT).GetSize },
        indexes := s.indexes.set key f.Offset } := by
  unfold Put at hput
  by_cases hlen : key.length = 0
  · simp [hlen] at hput
  · have hkey : key ≠ [] := fun h0 => hlen (by simp [h0])
    rw [if_neg hlen] at hput
    cases hf : s.dbFile with
    | none => simp [hf] at hput
    | some f =>
      simp only [hf] at hput
      cases fault with
      | some err => simp [DBFile.Write] at hput
      | none =>
        cases hc : f.File.closed with
        | true => simp [DBFile.Write, hc] at hput
        | false =>
          simp only [DBFile.Write, hc, Bool.false_eq_true, if_false, Except.ok.injEq,
            Prod.mk.injEq, and_true] at hput
          exact ⟨hkey, f, rfl, hc, hput.symm⟩

/-! ## The scanning loops return -/

theorem Read_ok_lt (f : DBFile) (offset : Nat) (e : Entry) (h : f.Read offset = .ok e) :
    offset < f.File.bytes.length := by
  unfold DBFile.Read at h
  by_cases hc : f.File.closed = true
  · simp [hc] at h
  · by_cases hlen : f.File.bytes.length ≤ offset
    · simp [hc, hlen] at h
    · omega

/-- The loop of `loadIndexes` returns within one iteration per byte left, plus
one. -/
theorem loadLoop_returns (f : DBFile) :
    ∀ (fuel offset : Nat) (indexes : Index), f.File.bytes.length - offset < fuel →
      ∃ r, loadLoop f fuel offset indexes = .ok r := by
  intro fuel
  induction fuel with
  | zero => intro offset indexes h; omega
  | succ n ih =>
    intro offset indexes h
    simp only [loadLoop]
    cases hread : f.Read offset with
    | error err => by_cases he : err = .EOF <;> simp [he]
    | ok e =>
      have hlt := Read_ok_lt f offset e hread
      have hpos := e.GetSize_pos
      exact ih _ _ (by omega)

/-- The first loop of `Merge` returns within one iteration per byte left, plus
one. -/
theorem mergeScan_returns (f : DBFile) (indexes : Index) :
    ∀ (fuel offset : Nat) (valid : List Entry), f.File.bytes.length - offset < fuel →
      ∃ r, mergeScan f indexes fuel offset valid = .ok r := by
  intro fuel
  induction fuel with
  | zero => intro offset valid h; omega
  | succ n ih =>
    intro offset valid h
    simp only [mergeScan]
    cases hread : f.Read offset with
    | error err => by_cases he : err = .EOF <;> simp [he]
    | ok e =>
      have hlt := Read_ok_lt f offset e hread
      have hpos := e.GetSize_pos
      exact ih _ _ (by omega)

/-- The method `loadIndexes` always returns. -/
theorem loadIndexes_returns (db : MiniBitcask) : ∃ db', loadIndexes db = .ok db' := by
  unfold loadIndexes
  cases hf : db.dbFile with
  | none => exact ⟨db, rfl⟩
  | some f =>
    obtain ⟨r, hr⟩ := loadLoop_returns f (f.File.bytes.length + 1) 0 db.indexes (by omega)
    simp [hr]

/-! ## Sequences of calls -/

theorem encodeLog_injective :
    ∀ (a b : List Entry), (∀ e ∈ a, e.WellFormed) → (∀ e ∈ b, e.WellFormed) →
      encodeLog a = encodeLog b → a = b := by
  intro a
  induction a with
  | nil =>
    intro b _ _ h
    cases b with
    | nil => rfl
    | cons y b =>
      have := congrArg List.length h
      rw [encodeLog_length, encodeLog_length] at this
      have hpos := y.GetSize_pos
      simp only [logSize] at this
      omega
  | cons x a ih =>
    intro b ha hb h
    cases b with
    | nil =>
      have := congrArg List.length h
      rw [encodeLog_length, encodeLog_length] at this
      have hpos := x.GetSize_pos
      simp only [logSize] at this
      omega
    | cons y b =>
      have h1 := Read_log ⟨⟨encodeLog (x :: a), false⟩, 0⟩ [] a x rfl rfl
        (ha x (List.mem_cons_self _ _))
      have h2 := Read_log ⟨⟨encodeLog (x :: a), false⟩, 0⟩ [] b y rfl h
        (hb y (List.mem_cons_self _ _))
      rw [h1] at h2
      simp only [Except.ok.injEq] at h2
      subst h2
      simp only [encodeLog, List.append_cancel_left_eq] at h
      rw [ih b (fun e he => ha e (List.mem_cons_of_mem _ he))
        (fun e he => hb e (List.mem_cons_of_mem _ he)) h]

theorem Merge_none_ok {s : MiniBitcask} {es : List Entry} (h : Holds s es) :
    ∃ s', Merge s MergeFaults.none = .ok (s', none) := by
  unfold Merge
  rw [h.1]
  by_cases h0 : logSize es = 0
  · simp [h0]
  · have hscan := mergeScan_log ⟨⟨encodeLog es, false⟩, logSize es⟩ rfl s.indexes es []
      ((encodeLog es).length + 1) [] rfl (fun e he => (h.2.2 e he).1)
      (by rw [encodeLog_length]; have := length_le_logSize es; omega)
    simp only [logSize, List.nil_append] at hscan
    simp only [h0, if_false, hscan, NewMergeDBFile, NewDBFile, MergeFaults.none]
    rw [mergeWrite_none _ _ _ _ rfl]
    exact ⟨_, rfl⟩

/-- A call on a store that holds a log returns, and the store then holds the
log `logAfter` describes. -/
theorem Holds.holds_apply {s : MiniBitcask} {es : List Entry} (h : Holds s es) (op : Op)
    (hfit : op.Fits) :
    ∃ s' err, op.apply s = .ok (s', err) ∧ Holds s' (logAfter es op) := by
  cases op with
  | put key value =>
    by_cases hkey : key = []
    · refine ⟨s, some .ErrEmptyKey, ?_, ?_⟩
      · simp [Op.apply, Put, hkey]
      · simpa [logAfter, hkey] using h
    · have hlen : ¬ key.length = 0 := fun h0 => hkey (List.length_eq_zero.1 h0)
      have hput : ∃ s', Put s key value none = .ok (s', none) := by
        simp [Put, hlen, h.1, DBFile.Write]
      obtain ⟨s', hs'⟩ := hput
      refine ⟨s', none, hs', ?_⟩
      simp only [logAfter, hkey, if_false]
      exact (h.put key value none hfit hs').2
  | delete key =>
    have hdel : ∃ s', Delete s key none = .ok (s', none) := by
      unfold Delete
      by_cases hlen : key.length = 0
      · simp [hlen]
      · rw [if_neg hlen]
        cases hidx : s.indexes key with
        | none => simp
        | some o => simp [h.1, DBFile.Write]
    obtain ⟨s', hs'⟩ := hdel
    exact ⟨s', none, hs', h.delete key none hs'⟩
  | merge =>
    obtain ⟨s', hs'⟩ := Merge_none_ok h
    exact ⟨s', none, hs', h.merge _ hs'⟩

theorem Holds.holds_run {ops : List Op} :
    ∀ {s : MiniBitcask} {es : List Entry}, Holds s es → (∀ op ∈ ops, op.Fits) →
      ∃ s', run s ops = .ok s' ∧ Holds s' (ops.foldl logAfter es) := by
  induction ops with
  | nil => intro s es h _; exact ⟨s, rfl, h⟩
  | cons op ops ih =>
    intro s es h hfit
    obtain ⟨s1, err, h1, hs1⟩ := h.holds_apply op (hfit op (List.mem_cons_self _ _))
    obtain ⟨s', h2, hs'⟩ := ih hs1 (fun o ho => hfit o (List.mem_cons_of_mem _ ho))
    refine ⟨s', ?_, hs'⟩
    simp only [minibitcask.run, h1]
    exact h2

theorem run_append (s : MiniBitcask) (a b : List Op) :
    run s (a ++ b) = match run s a with
      | .ok s1 => run s1 b
      | .error x => .error x := by
  induction a generalizing s with
  | nil => rfl
  | cons op a ih =>
    rw [List.cons_append]
    simp only [run]
    cases hop : op.apply s with
    | error x => rfl
    | ok p =>
      obtain ⟨s1, err⟩ := p
      exact ih s1

/-! ## Replay -/

/-- Opening a directory whose data file is a log of well-formed records
returns the store whose index is the replay of the log. -/
theorem Open_log (dirPath : String) (es : List Entry) (hwf : ∀ e ∈ es, e.WellFormed) :
    Open dirPath (encodeLog es) none none none =
      .ok (.ok { indexes := replayFrom 0 es Index.empty,
                 dbFile := some ⟨⟨encodeLog es, false⟩, (encodeLog es).length⟩,
                 dirPath := dirPath }) := by
  have hloop := loadLoop_log ⟨⟨encodeLog es, false⟩, (encodeLog es).length⟩ rfl es []
    ((encodeLog es).length + 1) Index.empty rfl hwf
    (by rw [encodeLog_length]; have := length_le_logSize es; omega)
  simp only [logSize] at hloop
  simp only [Open, NewDBFile, loadIndexes, hloop]

/-! ## Calls keep a store reachable -/

/-- A call that returns an error, the platform not failing, leaves the store
as it was. -/
theorem Op.apply_error_unchanged (s s' : MiniBitcask) (op : Op) (err : Error)
    (h : op.apply s = .ok (s', some err)) : s' = s := by
  cases op with
  | put key value =>
    simp only [Op.apply, Put] at h
    by_cases hlen : key.length = 0
    · simp only [hlen, if_true, Except.ok.injEq, Prod.mk.injEq] at h
      exact h.1.symm
    · rw [if_neg hlen] at h
      cases hf : s.dbFile with
      | none => simp [hf] at h
      | some f =>
        simp only [hf, DBFile.Write] at h
        cases hc : f.File.closed with
        | false => simp [hc] at h
        | true =>
          simp only [hc, if_true, Except.ok.injEq, Prod.mk.injEq] at h
          rw [← h.1, ← hf]
  | delete key =>
    simp only [Op.apply, Delete] at h
    by_cases hlen : key.length = 0
    · simp [hlen] at h
    · rw [if_neg hlen] at h
      cases hidx : s.indexes key with
      | none => simp [hidx] at h
      | some o =>
        simp only [hidx] at h
        cases hf : s.dbFile with
        | none => simp [hf] at h
        | some f =>
          simp only [hf, DBFile.Write] at h
          cases hc : f.File.closed with
          | false => simp [hc] at h
          | true =>
            simp only [hc, if_true, Except.ok.injEq, Prod.mk.injEq] at h
            rw [← h.1, ← hf]
  | merge =>
    simp only [Op.apply, Merge] at h
    cases hf : s.dbFile with
    | none => simp [hf] at h
    | some f =>
      simp only [hf] at h
      by_cases h0 : f.Offset = 0
      · simp [h0] at h
      · rw [if_neg h0] at h
        cases hscan : mergeScan f s.indexes (f.File.bytes.length + 1) 0 [] with
        | error a => simp [hscan] at h
        | ok r =>
          cases r with
          | error e =>
            simp only [hscan, Except.ok.injEq, Prod.mk.injEq] at h
            exact h.1.symm
          | ok valid =>
            simp only [hscan, NewMergeDBFile, NewDBFile, MergeFaults.none] at h
            rw [mergeWrite_none _ _ _ _ rfl] at h
            simp at h

theorem Reachable.reachable_apply {s s' : MiniBitcask} (hs : Reachable s) (op : Op) (hfit : op.Fits)
    (err : Option Error) (h : op.apply s = .ok (s', err)) : Reachable s' := by
  cases err with
  | some e =>
    rw [Op.apply_error_unchanged s s' op e h]
    exact hs
  | none =>
    cases op with
    | put key value => exact Reachable.put key value none hs hfit h
    | delete key => exact Reachable.delete key none hs h
    | merge => exact Reachable.merge MergeFaults.none hs h

/-- The calls of a sequence, the platform never failing, lead from a reachable
store to a reachable store. -/
theorem Reachable.reachable_run (ops : List Op) :
    ∀ {s s' : MiniBitcask}, Reachable s → (∀ op ∈ ops, op.Fits) → run s ops = .ok s' →
      Reachable s' := by
  induction ops with
  | nil =>
    intro s s' hs _ h
    simp only [minibitcask.run, Except.ok.injEq] at h
    rw [← h]
    exact hs
  | cons op ops ih =>
    intro s s' hs hfit h
    simp only [minibitcask.run] at h
    cases hop : op.apply s with
    | error a => simp [hop] at h
    | ok p =>
      obtain ⟨s1, err⟩ := p
      simp only [hop] at h
      exact ih (hs.reachable_apply op (hfit op (List.mem_cons_self _ _)) err hop)
        (fun o ho => hfit o (List.mem_cons_of_mem _ ho)) h

/-! ## What a merge keeps -/

theorem liveFrom_mem (indexes : Index) :
    ∀ (es : List Entry) (offset : Nat) (e : Entry),
      e ∈ liveFrom indexes offset es → indexes e.Key ≠ none := by
  intro es
  induction es with
  | nil => intro offset e h; simp [liveFrom] at h
  | cons x es ih =>
    intro offset e h
    simp only [liveFrom] at h
    by_cases hx : indexes x.Key = some offset
    · rw [if_pos hx] at h
      rcases List.mem_cons.1 h with rfl | h
      · rw [hx]; simp
      · exact ih _ _ h
    · rw [if_neg hx] at h
      exact ih _ _ h

/-- A merged log holds, for each key, the last record of the key when that
one is not a tombstone, and no other record. -/
theorem filter_key_lastPuts (key : Bytes) (es : List Entry) :
    (lastPuts es).filter (fun x => decide (x.Key = key)) =
      match lastRec key es with
      | some e => if e.Mark = DEL then [] else [e]
      | none => [] := by
  induction es with
  | nil => rfl
  | cons x es ih =>
    simp only [lastPuts, lastRec]
    by_cases hx : x.Mark ≠ DEL ∧ lastRec x.Key es = none
    · rw [if_pos hx]
      by_cases hk : x.Key = key
      · have hn : lastRec key es = none := by rw [← hk]; exact hx.2
        rw [hn] at ih
        simp [List.filter_cons, hk, ih, hn, hx.1]
      · simp only [List.filter_cons, hk, decide_False, Bool.false_eq_true, if_false, ih]
        cases lastRec key es <;> rfl
    · rw [if_neg hx, ih]
      cases hrec : lastRec key es with
      | some r => rfl
      | none =>
        by_cases hk : x.Key = key
        · have hm : x.Mark = DEL := by
            by_contra hm
            exact hx ⟨hm, by rw [hk]; exact hrec⟩
          simp [hk, hm]
        · simp [hk]

/-! ## The length of the log -/

theorem foldl_logAfter_writes :
    ∀ (ops : List Op) (es : List Entry), (∀ op ∈ ops, op.isWrite = true) →
      ∃ ext, ops.foldl logAfter es = es ++ ext := by
  intro ops
  induction ops with
  | nil => intro es _; exact ⟨[], by simp⟩
  | cons op ops ih =>
    intro es hw
    have hop := hw op (List.mem_cons_self _ _)
    have hstep : ∃ e1, logAfter es op = es ++ e1 := by
      cases op with
      | put key value =>
        by_cases hk : key = []
        · exact ⟨[], by simp [logAfter, hk]⟩
        · exact ⟨[NewEntry key value PUT], by simp [logAfter, hk]⟩
      | delete key =>
        simp only [logAfter]
        by_cases hk : key = []
        · exact ⟨[], by simp [hk]⟩
        · by_cases hv : valueOf key es = none
          · exact ⟨[], by simp [hk, hv]⟩
          · exact ⟨[NewEntry key [] DEL], by simp [hk, hv]⟩
      | merge => simp [Op.isWrite] at hop
    obtain ⟨e1, h1⟩ := hstep
    obtain ⟨e2, h2⟩ := ih (logAfter es op) (fun o ho => hw o (List.mem_cons_of_mem _ ho))
    exact ⟨e1 ++ e2, by rw [List.foldl_cons, h2, h1, List.append_assoc]⟩

/-! ## Calls return -/

/-- Opening a directory that holds no data yet returns the fresh store. -/
theorem Open_fresh (dirPath : String) :
    Open dirPath [] none none none = .ok (.ok (fresh dirPath)) := rfl

/-- The method `Merge` returns on every store that has a data file: its scan
never exhausts the iterations it is given. -/
theorem Merge_returns (s : MiniBitcask) (f : DBFile) (faults : MergeFaults)
    (hf : s.dbFile = some f) : ∃ r, Merge s faults = .ok r := by
  unfold Merge
  simp only [hf]
  by_cases h0 : f.Offset = 0
  · exact ⟨_, by rw [if_pos h0]⟩
  · rw [if_neg h0]
    obtain ⟨r, hr⟩ := mergeScan_returns f s.indexes (f.File.bytes.length + 1) 0 [] (by omega)
    rw [hr]
    cases r with
    | error err => exact ⟨_, rfl⟩
    | ok valid =>
      simp only
      cases NewMergeDBFile faults.create with
      | error err => exact ⟨_, rfl⟩
      | ok mf =>
        simp only
        cases hw : mergeWrite faults.write valid 0 mf s.indexes with
        | mk mf' rest =>
          obtain ⟨indexes', err⟩ := rest
          cases err with
          | some e => exact ⟨_, rfl⟩
          | none =>
            simp only
            cases NewDBFile mf'.File.bytes faults.reopen with
            | error err => exact ⟨_, rfl⟩
            | ok nf => exact ⟨_, rfl⟩

/-! ## Appending to the log -/

/-- Appending bytes to a file does not change what is read at an offset where
a record could be read. -/
theorem Read_append (f : DBFile) (t : Bytes) (offset newOffset : Nat) (e : Entry)
    (h : f.Read offset = .ok e) :
    DBFile.Read ⟨⟨f.File.bytes ++ t, false⟩, newOffset⟩ offset = .ok e := by
  have hlt := Read_ok_lt f offset e h
  have hE : entryHeaderSize = 9 := rfl
  unfold DBFile.Read at h ⊢
  by_cases hc : f.File.closed = true
  · rw [if_pos hc] at h
    cases h
  · rw [if_neg hc] at h
    have hdrop : (f.File.bytes ++ t).drop offset = f.File.bytes.drop offset ++ t :=
      List.drop_append_of_le_length (by omega)
    simp only [Bool.false_eq_true, if_false, hdrop]
    simp only at h
    generalize hr : f.File.bytes.drop offset = rest at h
    by_cases h0 : rest.length = 0
    · rw [if_pos h0] at h
      cases h
    · rw [if_neg h0] at h
      by_cases h9 : rest.length < entryHeaderSize
      · rw [if_pos h9] at h
        cases h
      · rw [if_neg h9] at h
        have h9n : (9 : Nat) ≤ rest.length := by omega
        have hpl : (rest.drop entryHeaderSize).length = rest.length - 9 := by
          rw [List.length_drop, hE]
        by_cases hp : (rest.drop entryHeaderSize).length
            < getUint32 (rest.take 4) + getUint32 ((rest.drop 4).take 4)
        · rw [if_pos hp] at h
          cases h
        · rw [if_neg hp] at h
          have e1 : (rest ++ t).take 4 = rest.take 4 :=
            List.take_append_of_le_length (by omega)
          have e2 : ((rest ++ t).drop 4).take 4 = (rest.drop 4).take 4 := by
            rw [List.drop_append_of_le_length (by omega)]
            exact List.take_append_of_le_length (by rw [List.length_drop]; omega)
          have e3 : ((rest ++ t).drop 8).headD 0 = (rest.drop 8).headD 0 := by
            rw [List.drop_append_of_le_length (by omega)]
            cases hd : rest.drop 8 with
            | nil =>
              have := congrArg List.length hd
              rw [List.length_drop] at this
              simp only [List.length_nil] at this
              omega
            | cons x xs => rfl
          have e4 : (rest ++ t).drop entryHeaderSize = rest.drop entryHeaderSize ++ t :=
            List.drop_append_of_le_length (by omega)
          have hlen0 : ¬ (rest ++ t).length = 0 := by
            rw [List.length_append]; omega
          have hlen9 : ¬ (rest ++ t).length < entryHeaderSize := by
            rw [List.length_append]; omega
          rw [if_neg hlen0, if_neg hlen9, e1, e2, e3, e4]
          have hp' : ¬ (rest.drop entryHeaderSize ++ t).length
              < getUint32 (rest.take 4) + getUint32 ((rest.drop 4).take 4) := by
            rw [List.length_append]
            omega
          rw [if_neg hp', ← h]
          have hks : getUint32 (rest.take 4) ≤ (rest.drop entryHeaderSize).length := by omega
          have e5 : (rest.drop entryHeaderSize ++ t).take (getUint32 (rest.take 4))
              = (rest.drop entryHeaderSize).take (getUint32 (rest.take 4)) :=
            List.take_append_of_le_length hks
          have e6 : ((rest.drop entryHeaderSize ++ t).drop (getUint32 (rest.take 4))).take
                (getUint32 ((rest.drop 4).take 4))
              = ((rest.drop entryHeaderSize).drop (getUint32 (rest.take 4))).take
                (getUint32 ((rest.drop 4).take 4)) := by
            rw [List.drop_append_of_le_length hks]
            exact List.take_append_of_le_length (by rw [List.length_drop]; omega)
          rw [e5, e6]

/-- A call of `Put` that returns an error leaves the index as it was. -/
theorem Put_error_index (s s' : MiniBitcask) (key value : Bytes) (fault : Option Error)
    (e : Error) (h : Put s key value fault = .ok (s', some e)) : s'.indexes = s.indexes := by
  unfold Put at h
  by_cases hlen : key.length = 0
  · simp only [hlen, if_true, Except.ok.injEq, Prod.mk.injEq] at h
    rw [← h.1]
  · rw [if_neg hlen] at h
    cases hf : s.dbFile with
    | none => simp [hf] at h
    | some f =>
      simp only [hf] at h
      cases hw : f.Write (NewEntry key value PUT) fault with
      | mk f' err =>
        rw [hw] at h
        cases err with
        | none => simp at h
        | some e' =>
          simp only [Except.ok.injEq, Prod.mk.injEq] at h
          rw [← h.1]

/-- A call of `Delete` that returns an error leaves the index as it was. -/
theorem Delete_error_index (s s' : MiniBitcask) (key : Bytes) (fault : Option Error)
    (e : Error) (h : Delete s key fault = .ok (s', some e)) : s'.indexes = s.indexes := by
  unfold Delete at h
  by_cases hlen : key.length = 0
  · simp [hlen] at h
  · rw [if_neg hlen] at h
    cases hidx : s.indexes key with
    | none => simp [hidx] at h
    | some o =>
      simp only [hidx] at h
      cases hf : s.dbFile with
      | none => simp [hf] at h
      | some f =>
        simp only [hf] at h
        cases hw : f.Write (NewEntry key [] DEL) fault with
        | mk f' err =>
          rw [hw] at h
          cases err with
          | none => simp at h
          | some e' =>
            simp only [Except.ok.injEq, Prod.mk.injEq] at h
            rw [← h.1]

/-! ## Merging twice -/

theorem lastPuts_idem (es : List Entry) : lastPuts (lastPuts es) = lastPuts es := by
  induction es with
  | nil => rfl
  | cons x es ih =>
    by_cases hx : x.Mark ≠ DEL ∧ lastRec x.Key es = none
    · have hx' : x.Mark ≠ DEL ∧ lastRec x.Key (lastPuts es) = none := by
        refine ⟨hx.1, ?_⟩
        rw [lastRec_lastPuts, hx.2]
      have h1 : lastPuts (x :: es) = x :: lastPuts es := by
        simp only [lastPuts, if_pos hx]
      rw [h1]
      simp only [lastPuts, if_pos hx', ih]
    · have h1 : lastPuts (x :: es) = lastPuts es := by
        simp only [lastPuts, if_neg hx]
      rw [h1, ih]

/-! ## The store and the plain map -/

/-- The method `Merge` is its part before the lock followed, on the same
store, by its part under the lock. -/
theorem Merge_eq_parts (db : MiniBitcask) (faults : MergeFaults) :
    Merge db faults =
      match mergeUnlocked db with
      | .error a => .error a
      | .ok (.returned err) => .ok (db, err)
      | .ok (.scanned validEntries) => mergeLocked db validEntries faults := by
  unfold Merge mergeUnlocked mergeLocked
  cases hf : db.dbFile with
  | none => rfl
  | some f =>
    simp only
    by_cases h0 : f.Offset = 0
    · simp only [h0, if_true]
    · simp only [h0, if_false]
      cases mergeScan f db.indexes (f.File.bytes.length + 1) 0 [] with
      | error a => rfl
      | ok r =>
        cases r with
        | error err => rfl
        | ok valid => rfl

/-! ## Merge on stores reached by successful calls -/

/-- On a store reached by successful calls, after a successful `Merge` the call
`Get` returns for every key what it returned just before the merge. -/
theorem merge_preserves_get (s s' : MiniBitcask) (faults : MergeFaults) (hs : Reachable s)
    (hm : Merge s faults = .ok (s', none)) (key : Bytes) :
    Get s' key = Get s key := by
  obtain ⟨es, hes⟩ := hs.holds
  have h' := hes.merge faults hm
  by_cases hkey : key = []
  · subst hkey
    rfl
  · rw [h'.get key hkey, hes.get key hkey, valueOf_lastPuts]

theorem merge_preserves_get_witness :
    Get (storeAfter (fresh "db") [.put [97] [1], .put [98] [2], .delete [97], .merge]) [98]
      = Get (storeAfter (fresh "db") [.put [97] [1], .put [98] [2], .delete [97]]) [98] :=
  merge_preserves_get (storeAfter (fresh "db") [.put [97] [1], .put [98] [2], .delete [97]])
    (storeAfter (fresh "db") [.put [97] [1], .put [98] [2], .delete [97], .merge])
    MergeFaults.none
    (Reachable.reachable_run [.put [97] [1], .put [98] [2], .delete [97]] (Reachable.fresh "db")
      (by
        intro op hop
        simp only [List.mem_cons, List.mem_singleton, List.not_mem_nil, or_false] at hop
        rcases hop with rfl | rfl | rfl
        · exact ⟨by decide, by decide⟩
        · exact ⟨by decide, by decide⟩
        · trivial)
      rfl)
    rfl [98]

/-- On a store reached by successful calls, whose log holds the records `es`, a
successful `Merge` leaves the log that holds, in scan order, exactly the
records of `es` the index points at; each is a `PUT` of a key of the index,
each key of the index has exactly one of them, and they are the records of `es`
that are the last of their key and not tombstones.  For Put(a,1); Put(b,2);
Put(a,3); Delete(b); Merge() the log is the single record a->3, `Get` of a
returns 3 and `Get` of b returns not-found. -/
theorem merge_keeps_live :
    (∀ (s s' : MiniBitcask) (faults : MergeFaults),
      Reachable s → Merge s faults = .ok (s', none) →
      ∃ es f f', s.dbFile = some f ∧ f.File.bytes = encodeLog es ∧
        (∀ e ∈ es, e.WellFormed) ∧
        (∀ es2, (∀ e ∈ es2, e.WellFormed) → f.File.bytes = encodeLog es2 → es2 = es) ∧
        s'.dbFile = some f' ∧ f'.File.bytes = encodeLog (liveFrom s.indexes 0 es) ∧
        (∀ e ∈ liveFrom s.indexes 0 es, e.Mark = PUT ∧ s.indexes e.Key ≠ none) ∧
        (∀ key, s.indexes key ≠ none →
          ∃ e, (liveFrom s.indexes 0 es).filter (fun x => decide (x.Key = key)) = [e]) ∧
        liveFrom s.indexes 0 es = lastPuts es) ∧
    (∃ s f, run (fresh "db")
        [.put [97] [49], .put [98] [50], .put [97] [51], .delete [98], .merge] = .ok s ∧
      s.dbFile = some f ∧ f.File.bytes = encodeLog [NewEntry [97] [51] PUT] ∧
      Get s [97] = .ok ([51], none) ∧ Get s [98] = .ok ([], none)) := by
  constructor
  · intro s s' faults hs hm
    obtain ⟨es, hes⟩ := hs.holds
    have h' := hes.merge faults hm
    have hwf : ∀ e ∈ es, e.WellFormed := fun e he => (hes.2.2 e he).1
    have hlive : liveFrom s.indexes 0 es = lastPuts es := by
      have := liveFrom_replay Index.empty es []
      simpa [hes.2.1, logSize] using this
    refine ⟨es, _, _, hes.1, rfl, hwf, ?_, h'.1, ?_, ?_, ?_, hlive⟩
    · intro es2 hwf2 h2
      exact encodeLog_injective es2 es hwf2 hwf h2.symm
    · rw [hlive]
    · intro e he
      refine ⟨?_, liveFrom_mem _ _ _ _ he⟩
      rw [hlive] at he
      have hmem := lastPuts_mem es e he
      rcases (hwf e hmem.1).2 with h1 | h1
      · exact h1
      · exact absurd h1 hmem.2
    · intro key hkey
      rw [hlive, filter_key_lastPuts]
      have hv : valueOf key es ≠ none := fun hv => hkey ((hes.index_none_iff key).2 hv)
      simp only [valueOf] at hv
      cases hrec : lastRec key es with
      | none => simp [hrec] at hv
      | some e =>
        by_cases hmk : e.Mark = DEL
        · simp [hrec, hmk] at hv
        · exact ⟨e, by simp [hmk]⟩
  · exact ⟨_, _, rfl, rfl, rfl, rfl, rfl⟩

theorem merge_keeps_live_witness :
    ∃ es f f',
      (storeAfter (fresh "db")
        [.put [97] [49], .put [98] [50], .put [97] [51], .delete [98]]).dbFile = some f ∧
      f.File.bytes = encodeLog es ∧
      (storeAfter (fresh "db")
        [.put [97] [49], .put [98] [50], .put [97] [51], .delete [98], .merge]).dbFile
          = some f' ∧
      f'.File.bytes = encodeLog (liveFrom (storeAfter (fresh "db")
        [.put [97] [49], .put [98] [50], .put [97] [51], .delete [98]]).indexes 0 es) := by
  have hr : Reachable (storeAfter (fresh "db")
      [.put [97] [49], .put [98] [50], .put [97] [51], .delete [98]]) :=
    Reachable.reachable_run [.put [97] [49], .put [98] [50], .put [97] [51], .delete [98]]
      (Reachable.fresh "db")
      (by
        intro op hop
        simp only [List.mem_cons, List.mem_singleton, List.not_mem_nil, or_false] at hop
        rcases hop with rfl | rfl | rfl | rfl
        · exact ⟨by decide, by decide⟩
        · exact ⟨by decide, by decide⟩
        · exact ⟨by decide, by decide⟩
        · trivial)
      rfl
  obtain ⟨es, f, f', h1, h2, _, _, h3, h4, _⟩ :=
    merge_keeps_live.1 _ (storeAfter (fresh "db")
      [.put [97] [49], .put [98] [50], .put [97] [51], .delete [98], .merge])
      MergeFaults.none hr rfl
  exact ⟨es, f, f', h1, h2, h3, h4⟩

/-! ## The claims -/

/-- C1. Round trip: on a store reachable by Put, Delete and Merge, a successful
`Put` of a non-empty key and a value (both within the size fields of the record
header) is followed by a `Get` of the key that returns the value and no
error. -/
theorem put_get_roundtrip (s s' : MiniBitcask) (key value : Bytes) (fault : Option Error)
    (hs : Reachable s) (hkey : key ≠ []) (hfit : FitsHeader key value)
    (hput : Put s key value fault = .ok (s', none)) :
    Get s' key = .ok (value, none) := by
  obtain ⟨es, hes⟩ := hs.holds
  have h' := (hes.put key value fault hfit hput).2
  rw [h'.get key hkey, valueOf_append_put]
  rfl

theorem put_get_roundtrip_witness :
    Get (storeAfter (fresh "db") [.put [107] [118, 49]]) [107] = .ok ([118, 49], none) :=
  put_get_roundtrip (fresh "db") _ [107] [118, 49] none (Reachable.fresh "db")
    (by decide) ⟨by decide, by decide⟩ rfl

/-- C2. Replay equivalence: after every sequence of calls on a fresh empty
store (entries within the size fields of the record header), closing the store
and opening the directory again rebuilds, by `loadIndexes`, an index equal to
the live one, and `Get` returns for every key what it returned before the
close. -/
theorem replay_equivalence (dirPath : String) (ops : List Op) (hfit : ∀ op ∈ ops, op.Fits) :
    ∃ s f sc s', run (fresh dirPath) ops = .ok s ∧ s.dbFile = some f ∧
      Close s = (sc, none) ∧
      Open dirPath f.File.bytes none none none = .ok (.ok s') ∧
      s'.indexes = s.indexes ∧ ∀ key, Get s' key = Get s key := by
  obtain ⟨s, hrun, hs⟩ := (holds_fresh dirPath).holds_run hfit
  generalize ops.foldl logAfter [] = es at hs
  have hwf : ∀ e ∈ es, e.WellFormed := fun e he => (hs.2.2 e he).1
  have hs' : Holds ⟨replayFrom 0 es Index.empty,
      some ⟨⟨encodeLog es, false⟩, (encodeLog es).length⟩, dirPath⟩ es := by
    refine ⟨?_, rfl, hs.2.2⟩
    simp [encodeLog_length]
  refine ⟨s, ⟨⟨encodeLog es, false⟩, logSize es⟩,
    { s with dbFile := some ⟨⟨encodeLog es, true⟩, logSize es⟩ },
    ⟨replayFrom 0 es Index.empty, some ⟨⟨encodeLog es, false⟩, (encodeLog es).length⟩, dirPath⟩,
    hrun, hs.1, ?_, Open_log dirPath es hwf, hs.2.1.symm, ?_⟩
  · simp [Close, hs.1]
  · intro key
    by_cases hkey : key = []
    · subst hkey
      rfl
    · rw [hs'.get key hkey, hs.get key hkey]

theorem replay_equivalence_witness :
    ∃ s f sc s', run (fresh "db") [.put [97] [1], .put [98] [2], .delete [97]] = .ok s ∧
      s.dbFile = some f ∧ Close s = (sc, none) ∧
      Open "db" f.File.bytes none none none = .ok (.ok s') ∧
      s'.indexes = s.indexes ∧ ∀ key, Get s' key = Get s key :=
  replay_equivalence "db" [.put [97] [1], .put [98] [2], .delete [97]]
    (by
      intro op hop
      simp only [List.mem_cons, List.mem_singleton, List.not_mem_nil, or_false] at hop
      rcases hop with rfl | rfl | rfl
      · exact ⟨by decide, by decide⟩
      · exact ⟨by decide, by decide⟩
      · trivial)

/-- C3 (what the code does). After Put(a,1); Put(b,2); Put(a,3), a `Merge`
whose second write to the temporary file fails returns the error but has
already pointed b at offset 0 (the defect of C7): `Get` of b, which returned 2,
now reads the old file at offset 0 and returns 1.  A following `Merge`
succeeds, keeps the record a->3 alone, and `Get` of b then returns 3: the
successful `Merge` changed what `Get` returns.  On the stores reached by
successful calls alone, a successful `Merge` changes no result of `Get`. -/
theorem Merge_after_failed_Merge_changes_Get :
    (∃ s1 s2,
      Get (storeAfter (fresh "db") [.put [97] [1], .put [98] [2], .put [97] [3]]) [98]
        = .ok ([2], none) ∧
      Merge (storeAfter (fresh "db") [.put [97] [1], .put [98] [2], .put [97] [3]])
        { create := none, write := fun i => if i = 1 then some .Fault else none,
          reopen := none } = .ok (s1, some .Fault) ∧
      Get s1 [98] = .ok ([1], none) ∧
      Merge s1 MergeFaults.none = .ok (s2, none) ∧
      Get s2 [98] = .ok ([3], none)) ∧
    (∀ (s s' : MiniBitcask) (faults : MergeFaults) (key : Bytes),
      Reachable s → Merge s faults = .ok (s', none) → Get s' key = Get s key) := by
  refine ⟨⟨_, _, rfl, rfl, rfl, rfl, rfl⟩, ?_⟩
  intro s s' faults key hs hm
  exact merge_preserves_get s s' faults hs hm key

/-- C5. Overwrite: on a reachable store, after two successful `Put`s of the
same non-empty key, `Get` returns the second value, the log has gained the two
`PUT` records in that order, and the index points the key at the second record,
which starts at the end offset the log had just before the second `Put`. -/
theorem put_put_overwrite (s0 s1 s2 : MiniBitcask) (key v1 v2 : Bytes)
    (fault1 fault2 : Option Error) (hs : Reachable s0) (hkey : key ≠ [])
    (hfit1 : FitsHeader key v1) (hfit2 : FitsHeader key v2)
    (h1 : Put s0 key v1 fault1 = .ok (s1, none)) (h2 : Put s1 key v2 fault2 = .ok (s2, none)) :
    Get s2 key = .ok (v2, none) ∧
    ∃ f0 f1 f2, s0.dbFile = some f0 ∧ s1.dbFile = some f1 ∧ s2.dbFile = some f2 ∧
      f2.File.bytes
        = f0.File.bytes ++ (NewEntry key v1 PUT).Encode ++ (NewEntry key v2 PUT).Encode ∧
      s2.indexes key = some f1.Offset ∧
      f1.Offset = f1.File.bytes.length ∧
      f1.Offset = f0.File.bytes.length + (NewEntry key v1 PUT).GetSize := by
  have hr1 : Reachable s1 := Reachable.put key v1 fault1 hs hfit1 h1
  obtain ⟨es, hes⟩ := hs.holds
  obtain ⟨es1, hes1⟩ := hr1.holds
  have hes2 := (hes1.put key v2 fault2 hfit2 h2).2
  refine ⟨by rw [hes2.get key hkey, valueOf_append_put]; rfl, ?_⟩
  obtain ⟨_, f0, hf0, _, hs1⟩ := Put_ok s0 s1 key v1 fault1 h1
  obtain ⟨_, f1, hf1, _, hs2⟩ := Put_ok s1 s2 key v2 fault2 h2
  have hf0' := hes.1
  rw [hf0] at hf0'
  simp only [Option.some.injEq] at hf0'
  subst hf0'
  subst hs1
  simp only [Option.some.injEq] at hf1
  subst hf1
  subst hs2
  refine ⟨_, _, _, hf0, rfl, rfl, rfl, ?_, ?_, ?_⟩
  · simp [Index.set]
  · simp [encodeLog_length, Entry.Encode_length]
  · simp [encodeLog_length]

theorem put_put_overwrite_witness :
    Get (storeAfter (fresh "db") [.put [107] [1], .put [107] [2, 3]]) [107]
      = .ok ([2, 3], none) :=
  (put_put_overwrite (fresh "db") (storeAfter (fresh "db") [.put [107] [1]])
    (storeAfter (fresh "db") [.put [107] [1], .put [107] [2, 3]]) [107] [1] [2, 3] none none
    (Reachable.fresh "db") (by decide) ⟨by decide, by decide⟩ ⟨by decide, by decide⟩
    rfl rfl).1

/-- C6 (what the code does). `Open` returns a store and no error whatever the
data file holds, once the file could be opened: `loadIndexes` has no result
and `Open` returns `db, nil` after it.  For the log made of the record a->1
followed by a record cut short after its key (header present, value missing),
`Read` at the second record is a corruption, yet `Open` returns a store whose
index holds a and not b. -/
theorem Open_drops_replay_error :
    (∀ (dirPath : String) (content : Bytes),
      ∃ db, Open dirPath content none none none = .ok (.ok db)) ∧
    (∃ f db, NewDBFile ((NewEntry [97] [49] PUT).Encode ++ [0, 0, 0, 1, 0, 0, 0, 1, 0, 98]) none
        = .ok f ∧
      f.Read 0 = .ok (NewEntry [97] [49] PUT) ∧
      f.Read 11 = .error .Corruption ∧
      Open "db" ((NewEntry [97] [49] PUT).Encode ++ [0, 0, 0, 1, 0, 0, 0, 1, 0, 98])
        none none none = .ok (.ok db) ∧
      db.indexes [97] = some 0 ∧ db.indexes [98] = none) := by
  constructor
  · intro dirPath content
    obtain ⟨db, hdb⟩ := loadIndexes_returns
      ⟨Index.empty, some ⟨⟨content, false⟩, content.length⟩, dirPath⟩
    exact ⟨db, by simp only [Open, NewDBFile, hdb]⟩
  · exact ⟨_, _, rfl, rfl, rfl, rfl, rfl, rfl⟩

/-- C7 (what the code does). After Put(a,1); Put(a,2); Put(b,3) a `Merge`
whose second write to the temporary file fails returns the error and keeps the
old data file, but has already pointed a at offset 0 of the temporary file:
`Get` of a, which returned 2 before the call, now reads the old file at offset
0 and returns the superseded value 1. -/
theorem Merge_failed_write_moves_index :
    ∃ s', Merge (storeAfter (fresh "db") [.put [97] [1], .put [97] [2], .put [98] [3]])
        { create := none, write := fun i => if i = 1 then some .Fault else none,
          reopen := none } = .ok (s', some .Fault) ∧
      s'.dbFile = (storeAfter (fresh "db") [.put [97] [1], .put [97] [2], .put [98] [3]]).dbFile ∧
      (storeAfter (fresh "db") [.put [97] [1], .put [97] [2], .put [98] [3]]).indexes [97]
        = some 11 ∧
      s'.indexes [97] = some 0 ∧
      Get (storeAfter (fresh "db") [.put [97] [1], .put [97] [2], .put [98] [3]]) [97]
        = .ok ([2], none) ∧
      Get s' [97] = .ok ([1], none) :=
  ⟨_, rfl, rfl, rfl, rfl, rfl, rfl⟩

/-- C8 (what the code does). A `Merge` whose second write to the temporary file
fails leaves the index pointing into the temporary file (the defect of C7), and
a following successful `Merge` judges the old log against that index.  After
Put(a,1); Put(a,2); Put(b,3) it keeps the superseded record a->1 and drops
a->2: the new log is a->1, b->3.  After Put(a,1); Put(b,2); Put(a,3) it keeps
a->3 alone while the index still holds b, which has no record in the new log.
For Put(a,1); Put(b,2); Put(a,3); Delete(b); Merge(), with no failed call, the
log is the single record a->3, `Get` of a returns 3 and `Get` of b returns
not-found. -/
theorem Merge_after_failed_Merge_keeps_stale_record :
    (∃ s1 s2 f2,
      Merge (storeAfter (fresh "db") [.put [97] [1], .put [97] [2], .put [98] [3]])
        { create := none, write := fun i => if i = 1 then some .Fault else none,
          reopen := none } = .ok (s1, some .Fault) ∧
      Merge s1 MergeFaults.none = .ok (s2, none) ∧ s2.dbFile = some f2 ∧
      f2.File.bytes = encodeLog [NewEntry [97] [1] PUT, NewEntry [98] [3] PUT] ∧
      Get s2 [97] = .ok ([1], none)) ∧
    (∃ s1 s2 f2,
      Merge (storeAfter (fresh "db") [.put [97] [1], .put [98] [2], .put [97] [3]])
        { create := none, write := fun i => if i = 1 then some .Fault else none,
          reopen := none } = .ok (s1, some .Fault) ∧
      Merge s1 MergeFaults.none = .ok (s2, none) ∧ s2.dbFile = some f2 ∧
      f2.File.bytes = encodeLog [NewEntry [97] [3] PUT] ∧
      s2.indexes [98] = some 0) ∧
    (∃ s f, run (fresh "db")
        [.put [97] [49], .put [98] [50], .put [97] [51], .delete [98], .merge] = .ok s ∧
      s.dbFile = some f ∧ f.File.bytes = encodeLog [NewEntry [97] [51] PUT] ∧
      Get s [97] = .ok ([51], none) ∧ Get s [98] = .ok ([], none)) := by
  refine ⟨⟨_, _, _, rfl, rfl, rfl, rfl, rfl⟩, ⟨_, _, _, rfl, rfl, rfl, rfl, rfl⟩, ?_⟩
  exact ⟨_, _, rfl, rfl, rfl, rfl, rfl⟩

/-- C9. Merge never grows the log: after every sequence of `Put`s and
`Delete`s on a fresh empty store (entries within the size fields of the record
header), a successful `Merge` leaves a write offset, equal to the length of the
log, that is at most the one before, and strictly less when some non-empty key
was `Put` twice in the sequence or some key present in the index was
deleted. -/
theorem merge_never_grows (dirPath : String) (ops : List Op) (s s' : MiniBitcask)
    (faults : MergeFaults) (hfit : ∀ op ∈ ops, op.Fits) (hw : ∀ op ∈ ops, op.isWrite = true)
    (hrun : run (fresh dirPath) ops = .ok s) (hm : Merge s faults = .ok (s', none)) :
    ∃ f f', s.dbFile = some f ∧ s'.dbFile = some f' ∧
      f.Offset = f.File.bytes.length ∧ f'.Offset = f'.File.bytes.length ∧
      f'.Offset ≤ f.Offset ∧
      (((∃ key v1 v2 l1 l2 l3, key ≠ [] ∧
            ops = l1 ++ Op.put key v1 :: (l2 ++ Op.put key v2 :: l3)) ∨
        (∃ key l1 l2 s1, ops = l1 ++ Op.delete key :: l2 ∧
            run (fresh dirPath) l1 = .ok s1 ∧ s1.indexes key ≠ none)) →
        f'.Offset < f.Offset) := by
  obtain ⟨s0, hrun0, hs0⟩ := (holds_fresh dirPath).holds_run hfit
  rw [hrun] at hrun0
  simp only [Except.ok.injEq] at hrun0
  subst hrun0
  have h' := hs0.merge faults hm
  refine ⟨_, _, hs0.1, h'.1, by simp [encodeLog_length], by simp [encodeLog_length],
    logSize_lastPuts_le _, ?_⟩
  have hfit_l : ∀ (a b : List Op), ops = a ++ b → (∀ op ∈ a, op.Fits) ∧ (∀ op ∈ b, op.Fits) := by
    intro a b hab
    subst hab
    exact ⟨fun o ho => hfit o (List.mem_append_left _ ho),
      fun o ho => hfit o (List.mem_append_right _ ho)⟩
  have hw_l : ∀ (a b : List Op), ops = a ++ b →
      (∀ op ∈ a, op.isWrite = true) ∧ (∀ op ∈ b, op.isWrite = true) := by
    intro a b hab
    subst hab
    exact ⟨fun o ho => hw o (List.mem_append_left _ ho),
      fun o ho => hw o (List.mem_append_right _ ho)⟩
  rintro (⟨key, v1, v2, l1, l2, l3, hkey, hops⟩ | ⟨key, l1, l2, s1, hops, hrun1, hidx⟩)
  · have hwr := (hw_l l1 _ hops).2
    have hw2 : ∀ op ∈ l2, op.isWrite = true := fun o ho =>
      hwr o (List.mem_cons_of_mem _ (List.mem_append_left _ ho))
    have hw3 : ∀ op ∈ l3, op.isWrite = true := fun o ho =>
      hwr o (List.mem_cons_of_mem _ (List.mem_append_right _ (List.mem_cons_of_mem _ ho)))
    obtain ⟨e2, he2⟩ := foldl_logAfter_writes l2
      (List.foldl logAfter [] l1 ++ [NewEntry key v1 PUT]) hw2
    obtain ⟨e3, he3⟩ := foldl_logAfter_writes l3
      (List.foldl logAfter [] l1 ++ [NewEntry key v1 PUT] ++ e2 ++ [NewEntry key v2 PUT]) hw3
    have hlog : List.foldl logAfter [] ops =
        List.foldl logAfter [] l1 ++ NewEntry key v1 PUT :: (e2 ++ NewEntry key v2 PUT :: e3) := by
      rw [hops]
      simp only [List.foldl_append, List.foldl_cons, logAfter, hkey, if_false, he2, he3]
      simp
    rw [hlog]
    exact logSize_lastPuts_lt _ _ _ (Or.inr ⟨NewEntry key v2 PUT, by simp, rfl⟩)
  · obtain ⟨s1', hrun1', hs1⟩ := (holds_fresh dirPath).holds_run (hfit_l l1 _ hops).1
    rw [hrun1] at hrun1'
    simp only [Except.ok.injEq] at hrun1'
    subst hrun1'
    have hv : valueOf key (List.foldl logAfter [] l1) ≠ none := fun hv =>
      hidx ((hs1.index_none_iff key).2 hv)
    have hkey : key ≠ [] := by
      intro hk
      apply hv
      have hn : lastRec key (List.foldl logAfter [] l1) = none := by
        rw [lastRec_eq_none]
        intro e he
        rw [hk]
        exact (hs1.2.2 e he).2
      simp [valueOf, hn]
    have hwr := (hw_l l1 _ hops).2
    have hw2 : ∀ op ∈ l2, op.isWrite = true := fun o ho => hwr o (List.mem_cons_of_mem _ ho)
    obtain ⟨e2, he2⟩ := foldl_logAfter_writes l2
      (List.foldl logAfter [] l1 ++ [NewEntry key [] DEL]) hw2
    have hlog : List.foldl logAfter [] ops =
        List.foldl logAfter [] l1 ++ NewEntry key [] DEL :: e2 := by
      rw [hops]
      simp only [List.foldl_append, List.foldl_cons, logAfter, hkey, hv, if_false, he2]
      simp
    rw [hlog]
    exact logSize_lastPuts_lt _ _ _ (Or.inl rfl)

theorem merge_never_grows_witness :
    ∃ f f',
      (storeAfter (fresh "db") [.put [97] [1], .put [97] [2], .delete [97]]).dbFile = some f ∧
      (storeAfter (fresh "db") [.put [97] [1], .put [97] [2], .delete [97], .merge]).dbFile
        = some f' ∧ f'.Offset < f.Offset := by
  obtain ⟨f, f', h1, h2, _, _, _, h3⟩ :=
    merge_never_grows "db" [.put [97] [1], .put [97] [2], .delete [97]]
      (storeAfter (fresh "db") [.put [97] [1], .put [97] [2], .delete [97]])
      (storeAfter (fresh "db") [.put [97] [1], .put [97] [2], .delete [97], .merge])
      MergeFaults.none
      (by
        intro op hop
        simp only [List.mem_cons, List.mem_singleton, List.not_mem_nil, or_false] at hop
        rcases hop with rfl | rfl | rfl
        · exact ⟨by decide, by decide⟩
        · exact ⟨by decide, by decide⟩
        · trivial)
      (by decide) rfl rfl
  have hlt := h3 (Or.inl ⟨[97], [1], [2], [], [], [.delete [97]], by decide, rfl⟩)
  exact ⟨f, f', h1, h2, hlt⟩

/-- C10. Replay characterisation: on the store `Open` builds for a log of
well-formed records, `loadIndexes` returns, and the index it leaves holds an
offset for a key exactly when the last record of the key in the log is a `PUT`,
the offset being the sum of the encoded sizes of the records before it. -/
theorem loadIndexes_characterisation (dirPath : String) (es : List Entry)
    (hwf : ∀ e ∈ es, e.WellFormed) :
    ∃ f db, NewDBFile (encodeLog es) none = .ok f ∧
      loadIndexes { indexes := Index.empty, dbFile := some f, dirPath := dirPath } = .ok db ∧
      ∀ (key : Bytes) (offset : Nat), db.indexes key = some offset ↔
        ∃ pre e post, es = pre ++ e :: post ∧ e.Key = key ∧ e.Mark = PUT ∧
          (∀ x ∈ post, x.Key ≠ key) ∧ offset = logSize pre := by
  have hloop := loadLoop_log ⟨⟨encodeLog es, false⟩, (encodeLog es).length⟩ rfl es []
    ((encodeLog es).length + 1) Index.empty rfl hwf
    (by rw [encodeLog_length]; have := length_le_logSize es; omega)
  simp only [logSize] at hloop
  refine ⟨⟨⟨encodeLog es, false⟩, (encodeLog es).length⟩,
    ⟨replayFrom 0 es Index.empty, some ⟨⟨encodeLog es, false⟩, (encodeLog es).length⟩, dirPath⟩,
    rfl, ?_, ?_⟩
  · simp only [loadIndexes, hloop]
  · intro key offset
    simp only
    rw [replayFrom_apply]
    constructor
    · intro h
      cases hrec : lastAt key 0 es with
      | none => simp [hrec, Index.empty] at h
      | some p =>
        obtain ⟨o, e⟩ := p
        obtain ⟨pre, post, hes, ho, hk, hpost⟩ := lastAt_decomp key _ _ _ _ hrec
        have he : e.WellFormed := hwf e (by rw [hes]; simp)
        rw [hrec] at h
        by_cases hm : e.Mark = DEL
        · simp [hm] at h
        · simp only [hm, if_false, Option.some.injEq] at h
          refine ⟨pre, e, post, hes, hk, ?_, hpost, by omega⟩
          rcases he.2 with h1 | h1
          · exact h1
          · exact absurd h1 hm
    · rintro ⟨pre, e, post, hes, hk, hm, hpost, ho⟩
      rw [hes, lastAt_of_decomp key pre post e 0 hk hpost]
      simp [hm, PUT, DEL, ho]

theorem loadIndexes_characterisation_witness :
    ∃ f db, NewDBFile (encodeLog [NewEntry [97] [1] PUT, NewEntry [97] [] DEL,
        NewEntry [98] [2] PUT]) none = .ok f ∧
      loadIndexes { indexes := Index.empty, dbFile := some f, dirPath := "db" } = .ok db ∧
      ∀ (key : Bytes) (offset : Nat), db.indexes key = some offset ↔
        ∃ pre e post, [NewEntry [97] [1] PUT, NewEntry [97] [] DEL, NewEntry [98] [2] PUT]
            = pre ++ e :: post ∧ e.Key = key ∧ e.Mark = PUT ∧
          (∀ x ∈ post, x.Key ≠ key) ∧ offset = logSize pre :=
  loadIndexes_characterisation "db"
    [NewEntry [97] [1] PUT, NewEntry [97] [] DEL, NewEntry [98] [2] PUT]
    (by
      intro e he
      simp only [List.mem_cons, List.mem_singleton, List.not_mem_nil, or_false] at he
      rcases he with rfl | rfl | rfl
      · exact ⟨⟨by decide, by decide⟩, Or.inl rfl⟩
      · exact ⟨⟨by decide, by decide⟩, Or.inr rfl⟩
      · exact ⟨⟨by decide, by decide⟩, Or.inl rfl⟩)

/-- C12 (what the code does). `Close` never clears `db.dbFile`: after a
successful `Close` the store still has its data file, with a closed handle, and
a second `Close` passes the nil check and returns the error of closing a closed
handle, not `ErrInvalidDBFile`. -/
theorem Close_twice_returns_platform_error :
    (∀ (s : MiniBitcask) (f : DBFile), s.dbFile = some f → f.File.closed = false →
      ∃ sc fc, Close s = (sc, none) ∧ sc.dbFile = some fc ∧ fc.File.closed = true ∧
        Close sc = (sc, some .ErrClosed)) ∧
    (∃ sc, Close (fresh "db") = (sc, none) ∧ sc.dbFile ≠ none ∧
      Close sc = (sc, some .ErrClosed) ∧ Error.ErrClosed ≠ Error.ErrInvalidDBFile) := by
  constructor
  · intro s f hf hc
    refine ⟨{ s with dbFile := some ⟨⟨f.File.bytes, true⟩, f.Offset⟩ },
      ⟨⟨f.File.bytes, true⟩, f.Offset⟩, ?_, rfl, rfl, ?_⟩
    · simp [Close, hf, hc]
    · simp [Close]
  · exact ⟨{ fresh "db" with dbFile := some ⟨⟨[], true⟩, 0⟩ }, rfl, by simp, rfl, by decide⟩

/-- C13. Empty key is rejected before the log is touched: on every store, `Put`
with a zero-length key returns `ErrEmptyKey` and the store as it was (same log,
same write offset, same index), and `Get` with a zero-length key returns
`ErrEmptyKey`. -/
theorem empty_key_rejected (s : MiniBitcask) (key value : Bytes) (fault : Option Error)
    (hkey : key.length = 0) :
    Put s key value fault = .ok (s, some .ErrEmptyKey) ∧
    Get s key = .ok ([], some .ErrEmptyKey) := by
  simp [Put, Get, hkey]

theorem empty_key_rejected_witness :
    Put (storeAfter (fresh "db") [.put [97] [1]]) [] [120] none
      = .ok (storeAfter (fresh "db") [.put [97] [1]], some .ErrEmptyKey) ∧
    Get (storeAfter (fresh "db") [.put [97] [1]]) [] = .ok ([], some .ErrEmptyKey) :=
  empty_key_rejected (storeAfter (fresh "db") [.put [97] [1]]) [] [120] none rfl

/-- C14. Delete of an absent key is a no-op: on every store, `Delete` of a key
the index does not hold, or of the zero-length key, returns no error and the
store as it was (nothing appended, same index), so every `Get` returns what it
returned before. -/
theorem delete_absent_noop (s : MiniBitcask) (key : Bytes) (fault : Option Error)
    (habsent : key.length = 0 ∨ s.indexes key = none) :
    Delete s key fault = .ok (s, none) ∧
    ∀ s', Delete s key fault = .ok (s', none) → ∀ k, Get s' k = Get s k := by
  have h : Delete s key fault = .ok (s, none) := by
    unfold Delete
    by_cases hlen : key.length = 0
    · simp [hlen]
    · rcases habsent with h0 | hidx
      · exact absurd h0 hlen
      · simp [hlen, hidx]
  refine ⟨h, ?_⟩
  intro s' hs' k
  rw [h] at hs'
  simp only [Except.ok.injEq, Prod.mk.injEq, and_true] at hs'
  rw [hs']

theorem delete_absent_noop_witness :
    Delete (storeAfter (fresh "db") [.put [97] [1]]) [98] none
      = .ok (storeAfter (fresh "db") [.put [97] [1]], none) :=
  (delete_absent_noop (storeAfter (fresh "db") [.put [97] [1]]) [98] none (Or.inr rfl)).1

/-- C15 (what the code does). `Merge` takes the lock only after its scan, so a
`Put` of another thread can run between the two parts of `Merge`.  On the store
after Put(a,1): `Merge` scans and keeps a; another thread puts b->2, which `Get`
then returns; `Merge` takes the lock, writes a to the new file and swaps the
files.  The new log holds a alone, the index still points b at offset 11 of
the old file, and `Get` of b reads past the end of the new log: the value
written while `Merge` ran is lost.  When the `Put` runs before or after the
whole `Merge`, `Get` of b returns 2. -/
theorem Merge_scans_before_lock :
    (∀ (db : MiniBitcask) (faults : MergeFaults),
      Merge db faults =
        match mergeUnlocked db with
        | .error a => .error a
        | .ok (.returned err) => .ok (db, err)
        | .ok (.scanned validEntries) => mergeLocked db validEntries faults) ∧
    (∃ validEntries s1 s2 f2,
      mergeUnlocked (storeAfter (fresh "db") [.put [97] [49]]) = .ok (.scanned validEntries) ∧
      Put (storeAfter (fresh "db") [.put [97] [49]]) [98] [50] none = .ok (s1, none) ∧
      Get s1 [98] = .ok ([50], none) ∧
      mergeLocked s1 validEntries MergeFaults.none = .ok (s2, none) ∧
      s2.dbFile = some f2 ∧ f2.File.bytes = (NewEntry [97] [49] PUT).Encode ∧
      s2.indexes [98] = some 11 ∧ f2.Read 11 = .error .EOF ∧
      Get s2 [98] = .error .nilDereference) ∧
    Get (storeAfter (fresh "db") [.put [97] [49], .put [98] [50], .merge]) [98]
      = .ok ([50], none) ∧
    Get (storeAfter (fresh "db") [.put [97] [49], .merge, .put [98] [50]]) [98]
      = .ok ([50], none) := by
  refine ⟨Merge_eq_parts, ?_, rfl, rfl⟩
  exact ⟨_, _, _, _, rfl, rfl, rfl, rfl, rfl, rfl, rfl, rfl, rfl⟩

/-- C17. Index validity: in every store reachable from a fresh empty store by
successful `Put`, `Delete` and `Merge` calls, the data file is open, the write
offset is the length of the log, and every offset the index holds for a key is
strictly below the write offset and is the start of a record of the log whose
key is that key and whose mark is `PUT`; `Read` returns that record.  Hence
`Get` of a non-empty key returns a value and no error, and `Get` never ends in
a nil dereference. -/
theorem index_validity (s : MiniBitcask) (hs : Reachable s) :
    ∃ f, s.dbFile = some f ∧ f.File.closed = false ∧ f.Offset = f.File.bytes.length ∧
      (∀ key offset, s.indexes key = some offset →
        offset < f.Offset ∧
        ∃ e, f.Read offset = .ok e ∧ e.Key = key ∧ e.Mark = PUT ∧
          ∃ pre post, f.File.bytes = encodeLog (pre ++ e :: post) ∧ offset = logSize pre ∧
            ∀ x ∈ pre ++ e :: post, x.WellFormed) ∧
      (∀ key, key ≠ [] → ∃ value, Get s key = .ok (value, none)) ∧
      (∀ key, ∃ r, Get s key = .ok r) := by
  obtain ⟨es, hes⟩ := hs.holds
  refine ⟨_, hes.1, rfl, by simp [encodeLog_length], ?_, ?_, ?_⟩
  · intro key offset hidx
    obtain ⟨pre, e, post, hdec, ho, hk, hm, _, _⟩ := hes.index_some key offset hidx
    have hwf : ∀ x ∈ pre ++ e :: post, x.WellFormed := by
      intro x hx
      rw [← hdec] at hx
      exact (hes.2.2 x hx).1
    have he : e.WellFormed := hwf e (by simp)
    refine ⟨?_, e, ?_, hk, ?_, pre, post, by simp [hdec], ho, hwf⟩
    · have hpos := e.GetSize_pos
      simp only [hdec, ho, logSize_append, logSize]
      omega
    · rw [ho]
      exact Read_log _ pre post e rfl (by simp [hdec]) he
    · rcases he.2 with h1 | h1
      · exact h1
      · exact absurd h1 hm
  · intro key hkey
    exact ⟨_, hes.get key hkey⟩
  · intro key
    by_cases hkey : key = []
    · subst hkey
      exact ⟨_, rfl⟩
    · exact ⟨_, hes.get key hkey⟩

theorem index_validity_witness :
    ∃ f, (storeAfter (fresh "db") [.put [97] [1], .put [98] [2], .delete [97]]).dbFile = some f ∧
      (∀ key offset,
        (storeAfter (fresh "db") [.put [97] [1], .put [98] [2], .delete [97]]).indexes key
          = some offset →
        offset < f.Offset ∧ ∃ e, f.Read offset = .ok e ∧ e.Key = key ∧ e.Mark = PUT) := by
  obtain ⟨f, h1, _, _, h2, _⟩ :=
    index_validity (storeAfter (fresh "db") [.put [97] [1], .put [98] [2], .delete [97]])
      (Reachable.reachable_run [.put [97] [1], .put [98] [2], .delete [97]]
        (Reachable.fresh "db")
        (by
          intro op hop
          simp only [List.mem_cons, List.mem_singleton, List.not_mem_nil, or_false] at hop
          rcases hop with rfl | rfl | rfl
          · exact ⟨by decide, by decide⟩
          · exact ⟨by decide, by decide⟩
          · trivial)
        rfl)
  refine ⟨f, h1, ?_⟩
  intro key offset hidx
  obtain ⟨hlt, e, hr, hk, hm, _⟩ := h2 key offset hidx
  exact ⟨hlt, e, hr, hk, hm⟩

/-- C18. Append before publish: on every store with a data file, when the
append of the `PUT` entry fails with an error, `Put` of a non-empty key returns
that error and the index is as before; when the append of the `DEL` entry
fails, `Delete` of a key of the index returns that error and the key keeps its
offset.  Whatever makes `Put` or `Delete` return an error, the index is as
before. -/
theorem append_before_publish (s : MiniBitcask) (f : DBFile) (key value : Bytes) (err : Error)
    (hkey : key ≠ []) (hf : s.dbFile = some f) :
    (∃ s', Put s key value (some err) = .ok (s', some err) ∧ s'.indexes = s.indexes) ∧
    (∀ offset, s.indexes key = some offset →
      ∃ s', Delete s key (some err) = .ok (s', some err) ∧ s'.indexes = s.indexes ∧
        s'.indexes key = some offset) ∧
    (∀ s' fault e, Put s key value fault = .ok (s', some e) → s'.indexes = s.indexes) ∧
    (∀ s' fault e, Delete s key fault = .ok (s', some e) → s'.indexes = s.indexes) := by
  have hlen : ¬ key.length = 0 := fun h0 => hkey (List.length_eq_zero.1 h0)
  refine ⟨?_, ?_, ?_, ?_⟩
  · exact ⟨{ s with dbFile := some f }, by simp [Put, hlen, hf, DBFile.Write], rfl⟩
  · intro offset hidx
    exact ⟨{ s with dbFile := some f }, by simp [Delete, hlen, hf, hidx, DBFile.Write], rfl,
      hidx⟩
  · intro s' fault e h
    exact Put_error_index s s' key value fault e h
  · intro s' fault e h
    exact Delete_error_index s s' key fault e h

theorem append_before_publish_witness :
    (∃ s', Put (storeAfter (fresh "db") [.put [97] [1]]) [97] [2] (some .Fault)
        = .ok (s', some .Fault) ∧
      s'.indexes = (storeAfter (fresh "db") [.put [97] [1]]).indexes) ∧
    (∃ s', Delete (storeAfter (fresh "db") [.put [97] [1]]) [97] (some .Fault)
        = .ok (s', some .Fault) ∧ s'.indexes [97] = some 0) := by
  have h := append_before_publish (storeAfter (fresh "db") [.put [97] [1]])
    ⟨⟨(NewEntry [97] [1] PUT).Encode, false⟩, 11⟩ [97] [2] .Fault (by decide) rfl
  obtain ⟨s', h1, _, h2⟩ := h.2.1 0 rfl
  exact ⟨h.1, s', h1, h2⟩

/-- C19. Append-only log: on every store with a data file, the log before a
call of `Put` or `Delete` is a beginning of the log after it, and a record that
could be read before the call is read unchanged after it.  A successful `Put`
appends exactly the `PUT` record of its key and value, a successful `Delete`
of a non-empty key of the index exactly the `DEL` record of the key, and the
write offset grows by the encoded size of that record, header size plus the
lengths of key and value; a call that returns an error appends nothing. -/
theorem append_only_log (s s' : MiniBitcask) (f : DBFile) (key value : Bytes)
    (fault err : Option Error) (hf : s.dbFile = some f) :
    (Put s key value fault = .ok (s', err) →
      ∃ f' t, s'.dbFile = some f' ∧ f'.File.bytes = f.File.bytes ++ t ∧
        (∀ offset e, f.Read offset = .ok e → f'.Read offset = .ok e) ∧
        (err = none → t = (NewEntry key value PUT).Encode ∧
          f'.Offset = f.Offset + (entryHeaderSize + key.length + value.length)) ∧
        (err ≠ none → t = [] ∧ f'.Offset = f.Offset)) ∧
    (Delete s key fault = .ok (s', err) →
      ∃ f' t, s'.dbFile = some f' ∧ f'.File.bytes = f.File.bytes ++ t ∧
        (∀ offset e, f.Read offset = .ok e → f'.Read offset = .ok e) ∧
        (err = none → key ≠ [] → s.indexes key ≠ none →
          t = (NewEntry key [] DEL).Encode ∧
          f'.Offset = f.Offset + (entryHeaderSize + key.length + 0)) ∧
        (err = none → (key = [] ∨ s.indexes key = none) → t = [] ∧ f'.Offset = f.Offset) ∧
        (err ≠ none → t = [] ∧ f'.Offset = f.Offset)) := by
  have hsame : ∀ (x : MiniBitcask), x.dbFile = some f →
      ∃ f' t, x.dbFile = some f' ∧ f'.File.bytes = f.File.bytes ++ t ∧
        (∀ offset e, f.Read offset = .ok e → f'.Read offset = .ok e) ∧
        t = [] ∧ f'.Offset = f.Offset := by
    intro x hx
    exact ⟨f, [], hx, by simp, fun _ _ h => h, rfl, rfl⟩
  constructor
  · intro h
    unfold Put at h
    by_cases hlen : key.length = 0
    · simp only [hlen, if_true, Except.ok.injEq, Prod.mk.injEq] at h
      obtain ⟨rfl, rfl⟩ := h
      obtain ⟨f', t, h1, h2, h3, h4, h5⟩ := hsame s hf
      exact ⟨f', t, h1, h2, h3, fun h => (by cases h), fun _ => ⟨h4, h5⟩⟩
    · rw [if_neg hlen] at h
      simp only [hf, DBFile.Write] at h
      cases fault with
      | some e0 =>
        simp only [Except.ok.injEq, Prod.mk.injEq] at h
        obtain ⟨rfl, rfl⟩ := h
        obtain ⟨f', t, h1, h2, h3, h4, h5⟩ := hsame { s with dbFile := some f } rfl
        exact ⟨f', t, h1, h2, h3, fun h => (by cases h), fun _ => ⟨h4, h5⟩⟩
      | none =>
        cases hc : f.File.closed with
        | true =>
          simp only [hc, if_true, Except.ok.injEq, Prod.mk.injEq] at h
          obtain ⟨rfl, rfl⟩ := h
          obtain ⟨f', t, h1, h2, h3, h4, h5⟩ := hsame { s with dbFile := some f } rfl
          exact ⟨f', t, h1, h2, h3, fun h => (by cases h), fun _ => ⟨h4, h5⟩⟩
        | false =>
          simp only [hc, Bool.false_eq_true, if_false, Except.ok.injEq, Prod.mk.injEq] at h
          obtain ⟨rfl, rfl⟩ := h
          refine ⟨_, (NewEntry key value PUT).Encode, rfl, rfl, ?_, ?_, ?_⟩
          · intro offset e he
            exact Read_append f _ offset _ e he
          · intro _
            exact ⟨rfl, rfl⟩
          · intro h
            exact absurd rfl h
  · intro h
    unfold Delete at h
    by_cases hlen : key.length = 0
    · have hk : key = [] := List.length_eq_zero.1 hlen
      simp only [hlen, if_true, Except.ok.injEq, Prod.mk.injEq] at h
      obtain ⟨rfl, rfl⟩ := h
      obtain ⟨f', t, h1, h2, h3, h4, h5⟩ := hsame s hf
      exact ⟨f', t, h1, h2, h3, fun _ hne => absurd hk hne, fun _ _ => ⟨h4, h5⟩,
        fun _ => ⟨h4, h5⟩⟩
    · have hk : key ≠ [] := fun h0 => hlen (by simp [h0])
      rw [if_neg hlen] at h
      cases hidx : s.indexes key with
      | none =>
        simp only [hidx, Except.ok.injEq, Prod.mk.injEq] at h
        obtain ⟨rfl, rfl⟩ := h
        obtain ⟨f', t, h1, h2, h3, h4, h5⟩ := hsame s hf
        exact ⟨f', t, h1, h2, h3, fun _ _ hne => absurd rfl hne, fun _ _ => ⟨h4, h5⟩,
          fun _ => ⟨h4, h5⟩⟩
      | some o =>
        simp only [hidx, hf, DBFile.Write] at h
        cases fault with
        | some e0 =>
          simp only [Except.ok.injEq, Prod.mk.injEq] at h
          obtain ⟨rfl, rfl⟩ := h
          obtain ⟨f', t, h1, h2, h3, h4, h5⟩ := hsame { s with dbFile := some f } rfl
          exact ⟨f', t, h1, h2, h3, fun h => (by cases h), fun h => (by cases h),
            fun _ => ⟨h4, h5⟩⟩
        | none =>
          cases hc : f.File.closed with
          | true =>
            simp only [hc, if_true, Except.ok.injEq, Prod.mk.injEq] at h
            obtain ⟨rfl, rfl⟩ := h
            obtain ⟨f', t, h1, h2, h3, h4, h5⟩ := hsame { s with dbFile := some f } rfl
            exact ⟨f', t, h1, h2, h3, fun h => (by cases h), fun h => (by cases h),
              fun _ => ⟨h4, h5⟩⟩
          | false =>
            simp only [hc, Bool.false_eq_true, if_false, Except.ok.injEq, Prod.mk.injEq] at h
            obtain ⟨rfl, rfl⟩ := h
            refine ⟨_, (NewEntry key [] DEL).Encode, rfl, rfl, ?_, ?_, ?_, ?_⟩
            · intro offset e he
              exact Read_append f _ offset _ e he
            · intro _ _ _
              exact ⟨rfl, rfl⟩
            · intro _ hor
              rcases hor with h1 | h1
              · exact absurd h1 hk
              · cases h1
            · intro h
              exact absurd rfl h

theorem append_only_log_witness :
    ∃ f' t, (storeAfter (fresh "db") [.put [97] [1], .put [98] [2, 3]]).dbFile = some f' ∧
      f'.File.bytes = (NewEntry [97] [1] PUT).Encode ++ t ∧
      t = (NewEntry [98] [2, 3] PUT).Encode ∧ f'.Offset = 11 + (entryHeaderSize + 1 + 2) := by
  obtain ⟨f', t, h1, h2, _, h3, _⟩ :=
    (append_only_log (storeAfter (fresh "db") [.put [97] [1]])
      (storeAfter (fresh "db") [.put [97] [1], .put [98] [2, 3]])
      ⟨⟨(NewEntry [97] [1] PUT).Encode, false⟩, 11⟩ [98] [2, 3] none none rfl).1 rfl
  exact ⟨f', t, h1, h2, (h3 rfl).1, (h3 rfl).2⟩

/-- C20. Merge is idempotent: on a reachable store, a successful `Merge`
followed by a second successful `Merge` leaves the log contents, the write
offset and the index that the first one left; and the second `Merge` does
succeed when the platform does not fail. -/
theorem merge_idempotent (s s1 s2 : MiniBitcask) (faults1 faults2 : MergeFaults)
    (hs : Reachable s) (h1 : Merge s faults1 = .ok (s1, none))
    (h2 : Merge s1 faults2 = .ok (s2, none)) :
    (∃ f1 f2, s1.dbFile = some f1 ∧ s2.dbFile = some f2 ∧
      f2.File.bytes = f1.File.bytes ∧ f2.Offset = f1.Offset) ∧
    s2.dbFile = s1.dbFile ∧ s2.indexes = s1.indexes ∧
    ∃ s2', Merge s1 MergeFaults.none = .ok (s2', none) := by
  obtain ⟨es, hes⟩ := hs.holds
  have hes1 := hes.merge faults1 h1
  have hes2 := hes1.merge faults2 h2
  rw [lastPuts_idem] at hes2
  refine ⟨⟨_, _, hes1.1, hes2.1, rfl, rfl⟩, ?_, ?_, Merge_none_ok hes1⟩
  · rw [hes1.1, hes2.1]
  · rw [hes1.2.1, hes2.2.1]

theorem merge_idempotent_witness :
    (storeAfter (fresh "db") [.put [97] [1], .put [97] [2], .merge, .merge]).dbFile
      = (storeAfter (fresh "db") [.put [97] [1], .put [97] [2], .merge]).dbFile ∧
    (storeAfter (fresh "db") [.put [97] [1], .put [97] [2], .merge, .merge]).indexes
      = (storeAfter (fresh "db") [.put [97] [1], .put [97] [2], .merge]).indexes :=
  have h := merge_idempotent (storeAfter (fresh "db") [.put [97] [1], .put [97] [2]])
    (storeAfter (fresh "db") [.put [97] [1], .put [97] [2], .merge])
    (storeAfter (fresh "db") [.put [97] [1], .put [97] [2], .merge, .merge])
    MergeFaults.none MergeFaults.none
    (Reachable.reachable_run [.put [97] [1], .put [97] [2]] (Reachable.fresh "db")
      (by
        intro op hop
        simp only [List.mem_cons, List.mem_singleton, List.not_mem_nil, or_false] at hop
        rcases hop with rfl | rfl
        · exact ⟨by decide, by decide⟩
        · exact ⟨by decide, by decide⟩)
      rfl)
    rfl rfl
  ⟨h.2.1, h.2.2.1⟩

end minibitcask
